import Mathlib

/-!
Verification development for the rudibi storage engine
(crate `rudibi-server`): a shallow embedding, in Lean, of the data
types, the value comparisons, the two storage backends and the table
operations of the Rust source, together with theorems settling the
specification's claims against it.

Bytes are modelled as `Nat` (values below 256 where produced by the
code); Rust `Vec<u8>` and `&[u8]` become `List Nat`; `usize`/`u64`
fields written to disk are 8 little-endian bytes.  Fallible Rust code
returns `Except`/`Option`; a Rust panic is modelled as `Option.none`.
-/

namespace Rudibi

/-! ## Little-endian encoding of fixed-width integers

`u32::from_le_bytes` / `usize::to_le_bytes` and friends.  `leDecode`
folds bytes least-significant first; `leEncode w n` produces the `w`
little-endian bytes of `n` (truncating at `2^(8*w)`, as the Rust casts
do). -/

def leDecode (l : List Nat) : Nat :=
  l.foldr (fun b acc => b % 256 + 256 * acc) 0

def leEncode : Nat → Nat → List Nat
  | 0, _ => []
  | w + 1, n => n % 256 :: leEncode w (n / 256)

theorem leEncode_length (w n : Nat) : (leEncode w n).length = w := by
  induction w generalizing n with
  | zero => rfl
  | succ w ih => simp [leEncode, ih]

theorem leDecode_cons (b : Nat) (l : List Nat) :
    leDecode (b :: l) = b % 256 + 256 * leDecode l := rfl

theorem leDecode_leEncode (w n : Nat) : leDecode (leEncode w n) = n % 2 ^ (8 * w) := by
  induction w generalizing n with
  | zero => simp [leEncode, leDecode, Nat.mod_one]
  | succ w ih =>
    have hM : 0 < 2 ^ (8 * w) := pow_pos (by norm_num) _
    have hpow : 2 ^ (8 * (w + 1)) = 256 * 2 ^ (8 * w) := by
      have h8 : 8 * (w + 1) = 8 * w + 8 := by ring
      rw [h8, pow_add]; ring
    rw [leEncode, leDecode_cons, ih, hpow]
    set M := 2 ^ (8 * w) with hMdef
    have hb : n % 256 < 256 := Nat.mod_lt _ (by norm_num)
    have h2 : n / 256 % M < M := Nat.mod_lt _ hM
    have hdecomp : n = (n % 256 + 256 * (n / 256 % M)) + (256 * M) * (n / 256 / M) := by
      calc n = 256 * (n / 256) + n % 256 := (Nat.div_add_mod n 256).symm
        _ = 256 * (M * (n / 256 / M) + n / 256 % M) + n % 256 := by
              rw [Nat.div_add_mod (n / 256) M]
        _ = (n % 256 + 256 * (n / 256 % M)) + (256 * M) * (n / 256 / M) := by ring
    have hmod : n % (256 * M) = n % 256 + 256 * (n / 256 % M) := by
      conv_lhs => rw [hdecomp]
      rw [Nat.add_mul_mod_self_left]
      exact Nat.mod_eq_of_lt (by omega)
    rw [Nat.mod_mod_of_dvd _ dvd_rfl, hmod]

theorem leEncode_lt_256 (w n : Nat) : ∀ b ∈ leEncode w n, b < 256 := by
  induction w generalizing n with
  | zero => simp [leEncode]
  | succ w ih =>
    intro b hb
    simp only [leEncode, List.mem_cons] at hb
    rcases hb with h | h
    · omega
    · exact ih _ _ h

/-- `l[start..stop]` as Rust slicing computes it for in-bounds indices
(`start ≤ stop ≤ l.length`); out of bounds Rust panics, theorems using
this helper carry the bounds. -/
def listSlice (l : List Nat) (start stop : Nat) : List Nat :=
  (l.take stop).drop start

/-! ## `dtype.rs`: `DataType` -/

inductive DataType where
  | U32
  | F64
  | UTF8 (max_bytes : Nat)
  | VARBINARY (max_length : Nat)
  | BUFFER (length : Nat)
deriving DecidableEq, Repr

def DataType.min_size : DataType → Nat
  | .U32 => 4
  | .F64 => 8
  | .UTF8 _ => 0
  | .VARBINARY _ => 0
  | .BUFFER length => length

def DataType.max_size : DataType → Nat
  | .U32 => 4
  | .F64 => 8
  | .UTF8 max_bytes => max_bytes
  | .VARBINARY max_length => max_length
  | .BUFFER length => length

/-! ## IEEE-754 binary64 comparisons on bit patterns

Rust `f64` values are modelled by their 64-bit pattern.  The host
comparisons (`==`, `<`, ...) are IEEE-754: every comparison involving a
NaN is false except `!=`; `-0.0 == 0.0`; otherwise sign-magnitude
order. -/

def f64IsNaN (a : Nat) : Bool :=
  (a / 2 ^ 52) % 2 ^ 11 == 2047 && a % 2 ^ 52 != 0

/-- Signed-magnitude key of a non-NaN bit pattern: both zeros map to 0,
negatives below positives. -/
def f64Key (a : Nat) : Int :=
  if (a / 2 ^ 63) % 2 == 0 then (a % 2 ^ 63 : Nat) else -(a % 2 ^ 63 : Nat)

def f64Eq (a b : Nat) : Bool := !f64IsNaN a && !f64IsNaN b && f64Key a == f64Key b

def f64Lt (a b : Nat) : Bool := !f64IsNaN a && !f64IsNaN b && decide (f64Key a < f64Key b)

def f64Le (a b : Nat) : Bool := !f64IsNaN a && !f64IsNaN b && decide (f64Key a ≤ f64Key b)

def f64Gt (a b : Nat) : Bool := f64Lt b a

def f64Ge (a b : Nat) : Bool := f64Le b a

/-! ## `dtype.rs`: `ColumnValue`, `TypeError` and the typed comparisons

`ColumnValue::UTF8` carries a Rust `String`, i.e. a byte sequence that
is valid UTF-8; string equality is byte equality. -/

inductive ColumnValue where
  | U32 (v : Nat)
  | F64 (bits : Nat)
  | UTF8 (bytes : List Nat)
  | Bytes (bytes : List Nat)
deriving DecidableEq, Repr

inductive TypeError where
  | ConversionError
  | InvalidArgType (op : String) (lhs rhs : ColumnValue)
deriving DecidableEq, Repr

instance {ε α : Type} [DecidableEq ε] [DecidableEq α] : DecidableEq (Except ε α) :=
  fun x y =>
    match x, y with
    | .ok a, .ok b =>
      if h : a = b then isTrue (by rw [h]) else isFalse (fun hc => by cases hc; exact h rfl)
    | .ok _, .error _ => isFalse (fun hc => by cases hc)
    | .error _, .ok _ => isFalse (fun hc => by cases hc)
    | .error e, .error f =>
      if h : e = f then isTrue (by rw [h]) else isFalse (fun hc => by cases hc; exact h rfl)

def ColumnValue.ne : ColumnValue → ColumnValue → Except TypeError Bool
  | .U32 l, .U32 r => .ok (l != r)
  | .F64 l, .F64 r => .ok (!f64Eq l r)
  | .UTF8 l, .UTF8 r => .ok (l != r)
  | l, r => .error (.InvalidArgType "ne" l r)

def ColumnValue.eq : ColumnValue → ColumnValue → Except TypeError Bool
  | .U32 l, .U32 r => .ok (l == r)
  | .F64 l, .F64 r => .ok (f64Eq l r)
  | .UTF8 l, .UTF8 r => .ok (l == r)
  | l, r => .error (.InvalidArgType "eq" l r)

def ColumnValue.gt : ColumnValue → ColumnValue → Except TypeError Bool
  | .U32 l, .U32 r => .ok (decide (l > r))
  | .F64 l, .F64 r => .ok (f64Gt l r)
  | l, r => .error (.InvalidArgType "gt" l r)

def ColumnValue.gte : ColumnValue → ColumnValue → Except TypeError Bool
  | .U32 l, .U32 r => .ok (decide (l ≥ r))
  | .F64 l, .F64 r => .ok (f64Ge l r)
  | l, r => .error (.InvalidArgType "gte" l r)

def ColumnValue.lt : ColumnValue → ColumnValue → Except TypeError Bool
  | .U32 l, .U32 r => .ok (decide (l < r))
  | .F64 l, .F64 r => .ok (f64Lt l r)
  | l, r => .error (.InvalidArgType "lt" l r)

def ColumnValue.lte : ColumnValue → ColumnValue → Except TypeError Bool
  | .U32 l, .U32 r => .ok (decide (l ≤ r))
  | .F64 l, .F64 r => .ok (f64Le l r)
  | l, r => .error (.InvalidArgType "lte" l r)

/-- `impl PartialEq for ColumnValue` unwraps the fallible `eq`; the
panic on `Err` is `none`. -/
def columnValuePartialEq (l r : ColumnValue) : Option Bool :=
  match ColumnValue.eq l r with
  | .ok b => some b
  | .error _ => none

/-- Variant tag of a `ColumnValue`, to state which operand pairings are
same-variant. -/
inductive VKind where
  | U32
  | F64
  | UTF8
  | Bytes
deriving DecidableEq, Repr

def ColumnValue.kind : ColumnValue → VKind
  | .U32 _ => .U32
  | .F64 _ => .F64
  | .UTF8 _ => .UTF8
  | .Bytes _ => .Bytes

/-! ## UTF-8 validation (`String::from_utf8`) -/

def utf8Cont (b : Nat) : Bool := 0x80 ≤ b && b ≤ 0xBF

def validUtf8 : List Nat → Bool
  | [] => true
  | b :: rest =>
    if b ≤ 0x7F then validUtf8 rest
    else if 0xC2 ≤ b && b ≤ 0xDF then
      match rest with
      | c1 :: r => utf8Cont c1 && validUtf8 r
      | [] => false
    else if b == 0xE0 then
      match rest with
      | c1 :: c2 :: r => (0xA0 ≤ c1 && c1 ≤ 0xBF) && utf8Cont c2 && validUtf8 r
      | _ => false
    else if (0xE1 ≤ b && b ≤ 0xEC) || b == 0xEE || b == 0xEF then
      match rest with
      | c1 :: c2 :: r => utf8Cont c1 && utf8Cont c2 && validUtf8 r
      | _ => false
    else if b == 0xED then
      match rest with
      | c1 :: c2 :: r => (0x80 ≤ c1 && c1 ≤ 0x9F) && utf8Cont c2 && validUtf8 r
      | _ => false
    else if b == 0xF0 then
      match rest with
      | c1 :: c2 :: c3 :: r => (0x90 ≤ c1 && c1 ≤ 0xBF) && utf8Cont c2 && utf8Cont c3 && validUtf8 r
      | _ => false
    else if 0xF1 ≤ b && b ≤ 0xF3 then
      match rest with
      | c1 :: c2 :: c3 :: r => utf8Cont c1 && utf8Cont c2 && utf8Cont c3 && validUtf8 r
      | _ => false
    else if b == 0xF4 then
      match rest with
      | c1 :: c2 :: c3 :: r => (0x80 ≤ c1 && c1 ≤ 0x8F) && utf8Cont c2 && utf8Cont c3 && validUtf8 r
      | _ => false
    else false
termination_by l => l.length
decreasing_by all_goals simp_wf <;> simp_arith [*]

/-! ## `dtype.rs`: `canonical_column` -/

def canonical_column (dtype : DataType) (data : List Nat) : Except TypeError ColumnValue :=
  match dtype with
  | .U32 => if data.length = 4 then .ok (.U32 (leDecode data)) else .error .ConversionError
  | .F64 => if data.length = 8 then .ok (.F64 (leDecode data)) else .error .ConversionError
  | .UTF8 _ => if validUtf8 data then .ok (.UTF8 data) else .error .ConversionError
  | .VARBINARY _ => .ok (.Bytes data)
  | .BUFFER length =>
    if data.length ≠ length then .error .ConversionError else .ok (.Bytes data)

def exceptIsOk {ε α : Type} : Except ε α → Bool
  | .ok _ => true
  | .error _ => false

/-! ## `engine.rs`: `StoredRow`, `Table`, `Database`

This is the engine snapshot shipped under `src/`: `Table` owns its
`contents`, `Table::store` validates each row and pushes it in the same
loop iteration, and `Database::new_table` checks only for a duplicate
name. -/

structure StoredRow where
  data : List Nat
  offsets : List Nat
deriving DecidableEq, Repr

inductive DatabaseError where
  | TableNotFound (name : String)
  | TableExists (name : String)
  | ColumnNotFound (name : String)
  | InvalidColumnCount (expected got : Nat)
  | RowSizeExceeded (got max : Nat)
  | RowSizeTooSmall (got min : Nat)
  | ColumnSizeOutOfBounds (column : String) (got min max : Nat)
  | UnsupportedOperation (msg : String)
  | InvalidFilterValue (msg : String)
  | ConversionError
deriving DecidableEq, Repr

structure ColumnSchema where
  name : String
  dtype : DataType
deriving DecidableEq, Repr

structure Table where
  name : String
  schema : List ColumnSchema
  contents : List StoredRow
  min_row_size : Nat
  max_row_size : Nat
deriving DecidableEq, Repr

def Table.new (name : String) (schema : List ColumnSchema) : Table :=
  { name := name
    schema := schema
    contents := []
    min_row_size := (schema.map (fun c => c.dtype.min_size)).sum
    max_row_size := (schema.map (fun c => c.dtype.max_size)).sum }

/-- The per-column size check of `Table::store`: Rust zips consecutive
offsets and indexes the schema at the same position (the zip length
equals the schema length once the column-count check passed). -/
def checkColumnSizes : List ColumnSchema → List (Nat × Nat) → Option DatabaseError
  | c :: cs, (o1, o2) :: rest =>
    let column_size := o2 - o1
    if column_size < c.dtype.min_size ∨ column_size > c.dtype.max_size then
      some (.ColumnSizeOutOfBounds c.name column_size c.dtype.min_size c.dtype.max_size)
    else checkColumnSizes cs rest
  | _, _ => none

def offsetPairs (offsets : List Nat) : List (Nat × Nat) := offsets.zip (offsets.drop 1)

/-- Validation applied to one row inside the loop of `Table::store`:
column count, then row size against the schema bounds, then per-column
sizes; first failure wins. -/
def Table.validateRow (t : Table) (row : StoredRow) : Option DatabaseError :=
  let input_cols := row.offsets.length - 1
  if input_cols ≠ t.schema.length then
    some (.InvalidColumnCount t.schema.length input_cols)
  else if row.data.length > t.max_row_size then
    some (.RowSizeExceeded row.data.length t.max_row_size)
  else if row.data.length < t.min_row_size then
    some (.RowSizeTooSmall row.data.length t.min_row_size)
  else checkColumnSizes t.schema (offsetPairs row.offsets)

/-- `Table::store`: iterate over the input rows, validating each one
and pushing it to `contents` in the same iteration; on the first
validation failure return the error, keeping the rows already pushed.
The `columns` parameter is accepted and ignored, as in the source. -/
def Table.store (t : Table) (columns : List String) (what : List StoredRow) :
    Table × Except DatabaseError Unit :=
  match what with
  | [] => (t, .ok ())
  | row :: rest =>
    match t.validateRow row with
    | some e => (t, .error e)
    | none => Table.store { t with contents := t.contents ++ [row] } columns rest

/-- `Database` owns the table map; the `HashMap` is an association
list whose most recent insertion wins lookups. -/
structure Database where
  tables : List (String × Table)
deriving DecidableEq, Repr

def Database.new : Database := { tables := [] }

/-- `Database::new_table`: reject a duplicate name, otherwise insert.
There is no check of the schema's column list. -/
def Database.new_table (db : Database) (t : Table) : Database × Except DatabaseError Unit :=
  if (db.tables.lookup t.name).isSome then
    (db, .error (.TableExists t.name))
  else
    ({ tables := (t.name, t) :: db.tables }, .ok ())

/-! ## Claims C4, C6, C9 about `dtype.rs` -/

/-- C4 counterexample: the claim states that `eq` on a pair of `Bytes`
values returns the comparison result, but the source's `ColumnValue::eq`
has no `Bytes` arm and falls through to the error case on equal `Bytes`
operands. -/
theorem eq_on_bytes_pair_is_error :
    ColumnValue.eq (.Bytes [0]) (.Bytes [0]) =
      .error (.InvalidArgType "eq" (.Bytes [0]) (.Bytes [0])) := rfl

/-- C4 (amended): U32 and F64 same-variant pairs support all six
comparison operators and return the host comparison; UTF8 pairs support
`eq`/`ne` only; `Bytes` pairs and every cross-variant pair are rejected,
and order operators on UTF8 are rejected; every rejection is the
`InvalidArgType` error carrying the operator name and the two operands. -/
theorem columnvalue_comparison_characterization :
    (∀ a b : Nat,
      ColumnValue.eq (.U32 a) (.U32 b) = .ok (a == b) ∧
      ColumnValue.ne (.U32 a) (.U32 b) = .ok (a != b) ∧
      ColumnValue.gt (.U32 a) (.U32 b) = .ok (decide (a > b)) ∧
      ColumnValue.gte (.U32 a) (.U32 b) = .ok (decide (a ≥ b)) ∧
      ColumnValue.lt (.U32 a) (.U32 b) = .ok (decide (a < b)) ∧
      ColumnValue.lte (.U32 a) (.U32 b) = .ok (decide (a ≤ b))) ∧
    (∀ x y : Nat,
      ColumnValue.eq (.F64 x) (.F64 y) = .ok (f64Eq x y) ∧
      ColumnValue.ne (.F64 x) (.F64 y) = .ok (!f64Eq x y) ∧
      ColumnValue.gt (.F64 x) (.F64 y) = .ok (f64Gt x y) ∧
      ColumnValue.gte (.F64 x) (.F64 y) = .ok (f64Ge x y) ∧
      ColumnValue.lt (.F64 x) (.F64 y) = .ok (f64Lt x y) ∧
      ColumnValue.lte (.F64 x) (.F64 y) = .ok (f64Le x y)) ∧
    (∀ s t : List Nat,
      ColumnValue.eq (.UTF8 s) (.UTF8 t) = .ok (s == t) ∧
      ColumnValue.ne (.UTF8 s) (.UTF8 t) = .ok (s != t)) ∧
    (∀ l r : ColumnValue, l.kind ≠ r.kind →
      ColumnValue.eq l r = .error (.InvalidArgType "eq" l r) ∧
      ColumnValue.ne l r = .error (.InvalidArgType "ne" l r) ∧
      ColumnValue.gt l r = .error (.InvalidArgType "gt" l r) ∧
      ColumnValue.gte l r = .error (.InvalidArgType "gte" l r) ∧
      ColumnValue.lt l r = .error (.InvalidArgType "lt" l r) ∧
      ColumnValue.lte l r = .error (.InvalidArgType "lte" l r)) ∧
    (∀ a b : List Nat,
      ColumnValue.eq (.Bytes a) (.Bytes b) =
        .error (.InvalidArgType "eq" (.Bytes a) (.Bytes b)) ∧
      ColumnValue.ne (.Bytes a) (.Bytes b) =
        .error (.InvalidArgType "ne" (.Bytes a) (.Bytes b)) ∧
      ColumnValue.gt (.Bytes a) (.Bytes b) =
        .error (.InvalidArgType "gt" (.Bytes a) (.Bytes b)) ∧
      ColumnValue.gte (.Bytes a) (.Bytes b) =
        .error (.InvalidArgType "gte" (.Bytes a) (.Bytes b)) ∧
      ColumnValue.lt (.Bytes a) (.Bytes b) =
        .error (.InvalidArgType "lt" (.Bytes a) (.Bytes b)) ∧
      ColumnValue.lte (.Bytes a) (.Bytes b) =
        .error (.InvalidArgType "lte" (.Bytes a) (.Bytes b))) ∧
    (∀ s t : List Nat,
      ColumnValue.gt (.UTF8 s) (.UTF8 t) =
        .error (.InvalidArgType "gt" (.UTF8 s) (.UTF8 t)) ∧
      ColumnValue.gte (.UTF8 s) (.UTF8 t) =
        .error (.InvalidArgType "gte" (.UTF8 s) (.UTF8 t)) ∧
      ColumnValue.lt (.UTF8 s) (.UTF8 t) =
        .error (.InvalidArgType "lt" (.UTF8 s) (.UTF8 t)) ∧
      ColumnValue.lte (.UTF8 s) (.UTF8 t) =
        .error (.InvalidArgType "lte" (.UTF8 s) (.UTF8 t))) := by
  refine ⟨fun a b => ⟨rfl, rfl, rfl, rfl, rfl, rfl⟩,
    fun x y => ⟨rfl, rfl, rfl, rfl, rfl, rfl⟩,
    fun s t => ⟨rfl, rfl⟩, ?_,
    fun a b => ⟨rfl, rfl, rfl, rfl, rfl, rfl⟩,
    fun s t => ⟨rfl, rfl, rfl, rfl⟩⟩
  intro l r h
  cases l <;> cases r <;>
    first
      | exact absurd rfl h
      | exact ⟨rfl, rfl, rfl, rfl, rfl, rfl⟩

/-- C4 amended witness: concrete instance of the cross-variant clause,
evaluated at `U32 1` against `UTF8 []`. -/
theorem columnvalue_comparison_characterization_witness :
    (ColumnValue.U32 1).kind ≠ (ColumnValue.UTF8 []).kind ∧
      ColumnValue.eq (.U32 1) (.UTF8 []) =
        .error (.InvalidArgType "eq" (.U32 1) (.UTF8 [])) :=
  ⟨by decide,
    (columnvalue_comparison_characterization.2.2.2.1 (.U32 1) (.UTF8 []) (by decide)).1⟩

/-- C6: `canonical_column` decodes `U32` exactly from 4 little-endian
bytes, `BUFFER { length }` passes the bytes through exactly at the
declared length, `UTF8` requires validity and ignores `max_bytes`,
`VARBINARY` always succeeds, and every failure is `ConversionError`. -/
theorem canonical_column_characterization :
    (∀ b : List Nat, exceptIsOk (canonical_column .U32 b) = (b.length == 4)) ∧
    (∀ b : List Nat, b.length = 4 →
      canonical_column .U32 b = .ok (.U32 (leDecode b))) ∧
    (∀ len b, canonical_column (.BUFFER len) b =
      if b.length = len then .ok (.Bytes b) else .error .ConversionError) ∧
    (∀ m b, canonical_column (.UTF8 m) b =
      if validUtf8 b then .ok (.UTF8 b) else .error .ConversionError) ∧
    (∀ m1 m2 b, canonical_column (.UTF8 m1) b = canonical_column (.UTF8 m2) b) ∧
    (∀ m b, canonical_column (.VARBINARY m) b = .ok (.Bytes b)) ∧
    (∀ d b e, canonical_column d b = .error e → e = .ConversionError) := by
  refine ⟨?_, ?_, ?_, ?_, ?_, fun m b => rfl, ?_⟩
  · intro b
    by_cases h : b.length = 4 <;> simp [canonical_column, h, exceptIsOk]
  · intro b h
    simp [canonical_column, h]
  · intro len b
    by_cases h : b.length = len <;> simp [canonical_column, h]
  · intro m b
    rfl
  · intro m1 m2 b
    rfl
  · intro d b e h
    cases d <;> simp only [canonical_column] at h <;>
      first
        | (split at h <;> simp_all)
        | simp_all

/-- C6 witness: the `U32` clauses evaluated at the concrete bytes
`[7, 0, 0, 0]` and the error clause at the empty `U32` input. -/
theorem canonical_column_characterization_witness :
    ([7, 0, 0, 0] : List Nat).length = 4 ∧
      canonical_column .U32 [7, 0, 0, 0] = .ok (.U32 7) ∧
      canonical_column .U32 [] = .error .ConversionError ∧
      TypeError.ConversionError = TypeError.ConversionError :=
  ⟨rfl, by rw [canonical_column_characterization.2.1 [7, 0, 0, 0] rfl]; rfl, rfl,
    canonical_column_characterization.2.2.2.2.2.2 .U32 [] .ConversionError rfl⟩

/-- C9: the `PartialEq` implementation for `ColumnValue` unwraps the
fallible `eq`, so every cross-variant pair panics (modelled `none`)
instead of returning `false`. -/
theorem partialeq_cross_variant_panics (l r : ColumnValue) (h : l.kind ≠ r.kind) :
    columnValuePartialEq l r = none := by
  cases l <;> cases r <;> first | exact absurd rfl h | rfl

/-! ## Claims C1 and C7 about `engine.rs` -/

/-- A one-U32-column table, fresh from `Table::new`. -/
def u32Table : Table := Table.new "T" [{ name := "id", dtype := .U32 }]

/-- A row passing validation on `u32Table` (4 data bytes). -/
def goodRow : StoredRow := { data := [7, 0, 0, 0], offsets := [0, 4] }

/-- A row failing validation on `u32Table` (3 data bytes, below the
minimum row size of 4). -/
def badRow : StoredRow := { data := [1, 2, 3], offsets := [0, 3] }

theorem store_all_valid (cols : List String) :
    ∀ (rows : List StoredRow) (t : Table), (∀ x ∈ rows, t.validateRow x = none) →
      t.store cols rows = ({ t with contents := t.contents ++ rows }, .ok ()) := by
  intro rows
  induction rows with
  | nil => intro t _; simp [Table.store]
  | cons r rest ih =>
    intro t h
    have hr : t.validateRow r = none := h r (by simp)
    have hrest : ∀ x ∈ rest, ({ t with contents := t.contents ++ [r] } : Table).validateRow x = none :=
      fun x hx => h x (by simp [hx])
    simp only [Table.store, hr]
    rw [ih _ hrest]
    simp

theorem store_stops_at_first_error (cols : List String) :
    ∀ (pre : List StoredRow) (t : Table) (r : StoredRow) (post : List StoredRow)
      (e : DatabaseError),
      (∀ x ∈ pre, t.validateRow x = none) → t.validateRow r = some e →
      t.store cols (pre ++ r :: post) = ({ t with contents := t.contents ++ pre }, .error e) := by
  intro pre
  induction pre with
  | nil =>
    intro t r post e _ hr
    simp [Table.store, hr]
  | cons p rest ih =>
    intro t r post e hpre hr
    have hp : t.validateRow p = none := hpre p (by simp)
    simp only [List.cons_append, Table.store, hp]
    have hstep := ih { t with contents := t.contents ++ [p] } r post e
      (fun x hx => hpre x (by simp [hx])) hr
    simpa using hstep

/-- C1 counterexample: storing a valid row followed by an invalid row
returns the validation error, yet the valid prefix has already been
appended — the table's contents are not what they were before the
call. -/
theorem store_error_keeps_valid_prefix :
    (u32Table.store ["id"] [goodRow, badRow]).2 = .error (.RowSizeTooSmall 3 4) ∧
      (u32Table.store ["id"] [goodRow, badRow]).1.contents = [goodRow] ∧
      u32Table.contents = [] := ⟨rfl, rfl, rfl⟩

/-- C1 (amended): `Table::store` validates and appends row by row.  If
every row validates, the call appends them all and returns `Ok`; on the
first invalid row it returns that row's validation error with exactly
the valid prefix before it appended. -/
theorem store_first_error_semantics (t : Table) (cols : List String) :
    (∀ rows, (∀ x ∈ rows, t.validateRow x = none) →
      t.store cols rows = ({ t with contents := t.contents ++ rows }, .ok ())) ∧
    (∀ pre r post e, (∀ x ∈ pre, t.validateRow x = none) → t.validateRow r = some e →
      t.store cols (pre ++ r :: post) =
        ({ t with contents := t.contents ++ pre }, .error e)) :=
  ⟨fun rows h => store_all_valid cols rows t h,
   fun pre r post e h1 h2 => store_stops_at_first_error cols pre t r post e h1 h2⟩

/-- C1 amended witness: the error clause applied to the concrete table
and rows, hypotheses discharged by evaluation. -/
theorem store_first_error_semantics_witness :
    u32Table.store ["id"] [goodRow, badRow] =
      ({ u32Table with contents := u32Table.contents ++ [goodRow] },
        .error (.RowSizeTooSmall 3 4)) :=
  (store_first_error_semantics u32Table ["id"]).2 [goodRow] badRow []
    (.RowSizeTooSmall 3 4) (by decide) (by decide)

/-- C7: the source's `Database::new_table` performs no empty-schema
check: creating a table whose column list is empty returns `Ok` and
mutates the table map, while the repository's test
`tests/schema.rs::create_empty_table` expects the `EmptyTableSchema`
error. -/
theorem new_table_empty_schema_accepted :
    (Database.new.new_table (Table.new "EmptyTable" [])).2 = .ok () ∧
      (Database.new.new_table (Table.new "EmptyTable" [])).1.tables =
        [("EmptyTable", Table.new "EmptyTable" [])] := ⟨rfl, rfl⟩

/-- C9 witness: `U32 0 == UTF8 []` panics. -/
theorem partialeq_cross_variant_panics_witness :
    (ColumnValue.U32 0).kind ≠ (ColumnValue.UTF8 []).kind ∧
      columnValuePartialEq (.U32 0) (.UTF8 []) = none :=
  ⟨by decide, partialeq_cross_variant_panics (.U32 0) (.UTF8 []) (by decide)⟩

/-! ## `storage.rs`: `Row`, `RowContent`, `InMemoryStorage`

`Row` is the new engine's row type as `storage.rs` consumes it (a
contiguous buffer plus column offsets); `RowContent` is the borrowed
per-row view a scan yields. -/

structure Row where
  data : List Nat
  offsets : List Nat
deriving DecidableEq, Repr

/-- `Row::get_column`: the slice `data[offsets[i]..offsets[i+1]]`.
Rust panics on out-of-range access; theorems quantify over inputs on
which the slice is in bounds, where this total model is exact. -/
def Row.get_column (r : Row) (i : Nat) : List Nat :=
  listSlice r.data (r.offsets.getD i 0) (r.offsets.getD (i + 1) 0)

structure RowContent where
  data : List Nat
  offsets : List Nat
deriving DecidableEq, Repr

def RowContent.get_column (rc : RowContent) (i : Nat) : List Nat :=
  listSlice rc.data (rc.offsets.getD i 0) (rc.offsets.getD (i + 1) 0)

/-- The schema argument of the storage constructors; `storage.rs` only
reads `schema.columns.len()`. -/
structure TableSchema where
  columns : List ColumnSchema
deriving Repr

structure InMemoryStorage where
  offsets_per_row : Nat
  data : List Nat
  relative_column_offsets : List Nat
  row_data_starts : List Nat
deriving DecidableEq, Repr

def InMemoryStorage.new (schema : TableSchema) : InMemoryStorage :=
  { offsets_per_row := schema.columns.length + 1
    data := []
    relative_column_offsets := []
    row_data_starts := [] }

/-- Inner loop of `InMemoryStorage::store`: append each mapped column
to the arena and push the running relative offset. -/
def imsStoreColumns (row : Row) : List Nat → Nat → InMemoryStorage → InMemoryStorage
  | [], _, s => s
  | i :: rest, next_offset, s =>
    let col := row.get_column i
    imsStoreColumns row rest (next_offset + col.length)
      { s with
        data := s.data ++ col
        relative_column_offsets := s.relative_column_offsets ++ [next_offset + col.length] }

/-- One iteration of the outer loop of `InMemoryStorage::store`: push
the relative offset `0` and the row start, then copy the mapped
columns. -/
def imsStoreRow (s : InMemoryStorage) (column_mapping : List Nat) (row : Row) :
    InMemoryStorage :=
  imsStoreColumns row column_mapping 0
    { s with
      relative_column_offsets := s.relative_column_offsets ++ [0]
      row_data_starts := s.row_data_starts ++ [s.data.length] }

def InMemoryStorage.store (s : InMemoryStorage) (rows : List Row)
    (column_mapping : List Nat) : InMemoryStorage :=
  rows.foldl (fun acc row => imsStoreRow acc column_mapping row) s

/-- One iteration of `InMemoryStorage::delete_rows`: skip an
out-of-range id, otherwise drain the row's payload slice, remove its
offsets window, remove its row start and shift the later row starts
back by the deleted length. -/
def imsDeleteOne (s : InMemoryStorage) (row_id : Nat) : InMemoryStorage :=
  if row_id < s.row_data_starts.length then
    let start := s.row_data_starts.getD row_id 0
    let stop :=
      if row_id + 1 < s.row_data_starts.length then s.row_data_starts.getD (row_id + 1) 0
      else s.data.length
    let deleted_length := stop - start
    let starts1 := s.row_data_starts.eraseIdx row_id
    { offsets_per_row := s.offsets_per_row
      data := s.data.take start ++ s.data.drop stop
      relative_column_offsets :=
        s.relative_column_offsets.take (row_id * s.offsets_per_row) ++
          s.relative_column_offsets.drop ((row_id + 1) * s.offsets_per_row)
      row_data_starts :=
        starts1.take row_id ++
          (starts1.drop row_id).map (fun v => if start < v then v - deleted_length else v) }
  else s

/-- `InMemoryStorage::delete_rows` sorts the ids in descending order
(`sort_by(|a, b| b.cmp(a))`; on `usize` values any correct sort yields
this list) and deletes one at a time. -/
def InMemoryStorage.delete_rows (s : InMemoryStorage) (row_ids : List Nat) :
    InMemoryStorage :=
  (List.insertionSort (fun a b => b ≤ a) row_ids).foldl imsDeleteOne s

/-- Bounds-checked slice; `none` models the Rust panic on an
out-of-range slice. -/
def sliceChecked (l : List Nat) (start stop : Nat) : Option (List Nat) :=
  if start ≤ stop ∧ stop ≤ l.length then some ((l.take stop).drop start) else none

/-- `InMemoryStorage::get_row_content`: `none` for an out-of-range row
id (the source's `None`) and also for a slice that would panic. -/
def InMemoryStorage.get_row_content (s : InMemoryStorage) (row_id : Nat) :
    Option RowContent :=
  if row_id < s.row_data_starts.length then
    let start := s.row_data_starts.getD row_id 0
    let stop :=
      if row_id + 1 < s.row_data_starts.length then s.row_data_starts.getD (row_id + 1) 0
      else s.data.length
    match sliceChecked s.data start stop,
        sliceChecked s.relative_column_offsets (row_id * s.offsets_per_row)
          ((row_id + 1) * s.offsets_per_row) with
    | some d, some o => some { data := d, offsets := o }
    | _, _ => none
  else none

/-- `InMemoryStorage::scan`: one item per row id in `0..count`, each
through `get_row_content` (whose `unwrap` panic is the `none` case). -/
def InMemoryStorage.scan (s : InMemoryStorage) : Option (List (Nat × RowContent)) :=
  (List.range s.row_data_starts.length).mapM
    (fun row_id => (s.get_row_content row_id).map (fun rc => (row_id, rc)))

/-! ## Abstract view of the in-memory storage

`MRow` is one stored row: its payload bytes and its `offsets_per_row`
relative column offsets.  `memOfRows` rebuilds the flattened Rust
representation from the abstract row list; every reachable
`InMemoryStorage` is of this shape. -/

structure MRow where
  payload : List Nat
  offs : List Nat
deriving DecidableEq, Repr

instance : Inhabited MRow := ⟨⟨[], []⟩⟩

def startsOf (acc : Nat) : List MRow → List Nat
  | [] => []
  | r :: rs => acc :: startsOf (acc + r.payload.length) rs

def memOfRows (opr : Nat) (rows : List MRow) : InMemoryStorage :=
  { offsets_per_row := opr
    data := (rows.map MRow.payload).flatten
    relative_column_offsets := (rows.map MRow.offs).flatten
    row_data_starts := startsOf 0 rows }

theorem startsOf_length (acc : Nat) (xs : List MRow) :
    (startsOf acc xs).length = xs.length := by
  induction xs generalizing acc with
  | nil => rfl
  | cons x xs ih => simp [startsOf, ih]

theorem startsOf_shift (a : Nat) (xs : List MRow) :
    startsOf a xs = (startsOf 0 xs).map (a + ·) := by
  induction xs generalizing a with
  | nil => rfl
  | cons x xs ih =>
    simp only [startsOf, List.map_cons, Nat.add_zero, Nat.zero_add]
    congr 1
    rw [ih (a + x.payload.length), ih x.payload.length, List.map_map]
    congr 1
    funext v
    simp [Nat.add_assoc]

theorem startsOf_append (acc : Nat) (xs ys : List MRow) :
    startsOf acc (xs ++ ys) =
      startsOf acc xs ++ startsOf (acc + (xs.map (fun r => r.payload.length)).sum) ys := by
  induction xs generalizing acc with
  | nil => simp [startsOf]
  | cons x xs ih => simp [startsOf, ih, Nat.add_assoc]

theorem flatten_map_payload_length (xs : List MRow) :
    ((xs.map MRow.payload).flatten).length = (xs.map (fun r => r.payload.length)).sum := by
  rw [List.length_flatten, List.map_map]
  rfl

theorem flatten_offs_length (opr : Nat) (xs : List MRow)
    (h : ∀ r ∈ xs, r.offs.length = opr) :
    ((xs.map MRow.offs).flatten).length = xs.length * opr := by
  induction xs with
  | nil => simp
  | cons x xs ih =>
    simp only [List.map_cons, List.flatten_cons, List.length_append,
      h x (List.mem_cons_self x xs), ih (fun r hr => h r (List.mem_cons_of_mem x hr)),
      List.length_cons, Nat.succ_mul]
    omega

/-- Running relative offsets as the store loop pushes them: starting
from `next`, one entry per column size. -/
def runningOffs (next : Nat) : List Nat → List Nat
  | [] => []
  | sz :: rest => (next + sz) :: runningOffs (next + sz) rest

/-- The abstract row a `store` call appends for one input row: the
mapped columns concatenated, with relative offsets `0` followed by the
running sums of the mapped column lengths. -/
def mrowOf (mapping : List Nat) (row : Row) : MRow :=
  { payload := (mapping.map (fun i => row.get_column i)).flatten
    offs := 0 :: runningOffs 0 (mapping.map (fun i => (row.get_column i).length)) }

theorem imsStoreColumns_spec (row : Row) (is : List Nat) (next : Nat) (s : InMemoryStorage) :
    imsStoreColumns row is next s =
      { s with
        data := s.data ++ (is.map (fun i => row.get_column i)).flatten
        relative_column_offsets :=
          s.relative_column_offsets ++
            runningOffs next (is.map (fun i => (row.get_column i).length)) } := by
  induction is generalizing next s with
  | nil => simp [imsStoreColumns, runningOffs]
  | cons i rest ih =>
    simp only [imsStoreColumns, List.map_cons, List.flatten_cons, runningOffs]
    rw [ih]
    simp [List.append_assoc]

theorem imsStoreRow_memOfRows (opr : Nat) (rows : List MRow) (mapping : List Nat) (row : Row) :
    imsStoreRow (memOfRows opr rows) mapping row =
      memOfRows opr (rows ++ [mrowOf mapping row]) := by
  rw [imsStoreRow, imsStoreColumns_spec]
  simp only [memOfRows, mrowOf, List.map_append, List.flatten_append, List.map_cons,
    List.flatten_cons, List.map_nil, List.flatten_nil, List.append_nil,
    startsOf_append, startsOf, Nat.zero_add, InMemoryStorage.mk.injEq]
  exact ⟨trivial, by simp [List.append_assoc], by simp [List.append_assoc],
    by rw [flatten_map_payload_length]⟩

theorem store_memOfRows (opr : Nat) (rows : List MRow) (newRows : List Row)
    (mapping : List Nat) :
    (memOfRows opr rows).store newRows mapping =
      memOfRows opr (rows ++ newRows.map (mrowOf mapping)) := by
  induction newRows generalizing rows with
  | nil => simp [InMemoryStorage.store]
  | cons r rest ih =>
    have hrow := imsStoreRow_memOfRows opr rows mapping r
    calc (memOfRows opr rows).store (r :: rest) mapping
        = (imsStoreRow (memOfRows opr rows) mapping r).store rest mapping := rfl
      _ = (memOfRows opr (rows ++ [mrowOf mapping r])).store rest mapping := by rw [hrow]
      _ = memOfRows opr ((rows ++ [mrowOf mapping r]) ++ rest.map (mrowOf mapping)) := ih _
      _ = memOfRows opr (rows ++ (r :: rest).map (mrowOf mapping)) := by
          simp [List.append_assoc]

theorem getD_append_mid (l1 : List Nat) (x : Nat) (l2 : List Nat) :
    (l1 ++ x :: l2).getD l1.length 0 = x := by
  induction l1 with
  | nil => rfl
  | cons a l ih => simpa using ih

theorem eraseIdx_append_mid {α : Type} (l1 : List α) (x : α) (l2 : List α) :
    (l1 ++ x :: l2).eraseIdx l1.length = l1 ++ l2 := by
  induction l1 with
  | nil => rfl
  | cons a l ih => simpa using ih

theorem imsDeleteOne_memOfRows_split (opr : Nat) (pre : List MRow) (r : MRow)
    (post : List MRow) (hoffs : ∀ x ∈ pre ++ r :: post, x.offs.length = opr) :
    imsDeleteOne (memOfRows opr (pre ++ r :: post)) pre.length =
      memOfRows opr (pre ++ post) := by
  have hpre : ∀ x ∈ pre, x.offs.length = opr := fun x hx => hoffs x (by simp [hx])
  have hr : r.offs.length = opr := hoffs r (by simp)
  have hO1len : ((pre.map MRow.offs).flatten).length = pre.length * opr :=
    flatten_offs_length opr pre hpre
  have hPA : ((pre.map MRow.payload).flatten).length =
      (pre.map (fun t => t.payload.length)).sum := flatten_map_payload_length pre
  have hS1len : (startsOf 0 pre).length = pre.length := startsOf_length 0 pre
  have hstate : memOfRows opr (pre ++ r :: post) =
      { offsets_per_row := opr
        data := (pre.map MRow.payload).flatten ++
          (r.payload ++ (post.map MRow.payload).flatten)
        relative_column_offsets := (pre.map MRow.offs).flatten ++
          (r.offs ++ (post.map MRow.offs).flatten)
        row_data_starts := startsOf 0 pre ++
          (pre.map (fun t => t.payload.length)).sum ::
            startsOf ((pre.map (fun t => t.payload.length)).sum + r.payload.length) post } := by
    simp [memOfRows, startsOf_append, startsOf]
  set A := (pre.map (fun t => t.payload.length)).sum with hA
  have hstart : (startsOf 0 pre ++ A :: startsOf (A + r.payload.length) post).getD pre.length 0
      = A := by
    rw [← hS1len]
    exact getD_append_mid _ _ _
  have hstop :
      (if pre.length + 1 <
          (startsOf 0 pre ++ A :: startsOf (A + r.payload.length) post).length
        then (startsOf 0 pre ++ A :: startsOf (A + r.payload.length) post).getD
          (pre.length + 1) 0
        else ((pre.map MRow.payload).flatten ++
          (r.payload ++ (post.map MRow.payload).flatten)).length) = A + r.payload.length := by
    cases post with
    | nil =>
      rw [if_neg (by simp [startsOf, hS1len])]
      simp [startsOf, hPA]
    | cons p post' =>
      rw [if_pos (by simp [startsOf, startsOf_length, hS1len])]
      have hsplit : startsOf 0 pre ++ A :: startsOf (A + r.payload.length) (p :: post') =
          (startsOf 0 pre ++ [A]) ++ (A + r.payload.length) ::
            startsOf (A + r.payload.length + p.payload.length) post' := by
        simp [startsOf]
      rw [hsplit]
      have hlen1 : (startsOf 0 pre ++ [A]).length = pre.length + 1 := by simp [hS1len]
      rw [← hlen1]
      exact getD_append_mid _ _ _
  have herase : (startsOf 0 pre ++ A :: startsOf (A + r.payload.length) post).eraseIdx
      pre.length = startsOf 0 pre ++ startsOf (A + r.payload.length) post := by
    rw [← hS1len]
    exact eraseIdx_append_mid _ _ _
  have hmapshift : (startsOf (A + r.payload.length) post).map
        (fun v => if A < v then v - (A + r.payload.length - A) else v) = startsOf A post := by
    rw [startsOf_shift (A + r.payload.length), startsOf_shift A, List.map_map]
    congr 1
    funext v
    simp only [Function.comp_apply]
    split_ifs <;> omega
  rw [hstate, imsDeleteOne]
  rw [if_pos (by simp [startsOf_length, hS1len])]
  simp only [hstart, hstop, herase]
  have hdata : ((pre.map MRow.payload).flatten ++
        (r.payload ++ (post.map MRow.payload).flatten)).take A ++
      ((pre.map MRow.payload).flatten ++
        (r.payload ++ (post.map MRow.payload).flatten)).drop (A + r.payload.length) =
      (pre.map MRow.payload).flatten ++ (post.map MRow.payload).flatten := by
    have h1 := @List.take_left' Nat ((pre.map MRow.payload).flatten)
      (r.payload ++ (post.map MRow.payload).flatten) _ (hPA.trans hA.symm)
    have h2 : A + r.payload.length =
        ((pre.map MRow.payload).flatten).length + r.payload.length := by
      rw [hPA, hA]
    rw [h1, h2, List.drop_append, List.drop_left]
  have hrel : ((pre.map MRow.offs).flatten ++
        (r.offs ++ (post.map MRow.offs).flatten)).take (pre.length * opr) ++
      ((pre.map MRow.offs).flatten ++
        (r.offs ++ (post.map MRow.offs).flatten)).drop ((pre.length + 1) * opr) =
      (pre.map MRow.offs).flatten ++ (post.map MRow.offs).flatten := by
    have h1 := @List.take_left' Nat ((pre.map MRow.offs).flatten)
      (r.offs ++ (post.map MRow.offs).flatten) _ hO1len
    have h2 : (pre.length + 1) * opr = ((pre.map MRow.offs).flatten).length + opr := by
      rw [hO1len]; ring
    rw [h1, h2, List.drop_append, ← hr, List.drop_left]
  have hstarts : (startsOf 0 pre ++ startsOf (A + r.payload.length) post).take pre.length ++
      ((startsOf 0 pre ++ startsOf (A + r.payload.length) post).drop pre.length).map
        (fun v => if A < v then v - (A + r.payload.length - A) else v) =
      startsOf 0 (pre ++ post) := by
    rw [List.take_left' hS1len, List.drop_left' hS1len, hmapshift,
      startsOf_append, Nat.zero_add, hA]
  rw [hdata, hrel, hstarts]
  simp [memOfRows]

theorem imsDeleteOne_memOfRows (opr : Nat) (rows : List MRow)
    (hoffs : ∀ r ∈ rows, r.offs.length = opr) (k : Nat) :
    imsDeleteOne (memOfRows opr rows) k = memOfRows opr (rows.eraseIdx k) := by
  by_cases hk : k < rows.length
  · have hdrop : rows.drop k = rows[k] :: rows.drop (k + 1) := List.drop_eq_getElem_cons hk
    have hdecomp : rows = rows.take k ++ rows[k] :: rows.drop (k + 1) := by
      conv_lhs => rw [← List.take_append_drop k rows, hdrop]
    have hklen : (rows.take k).length = k := by
      simp [List.length_take]
      omega
    have hsplit := imsDeleteOne_memOfRows_split opr (rows.take k) rows[k]
      (rows.drop (k + 1)) (by rw [← hdecomp]; exact hoffs)
    rw [hklen] at hsplit
    have herase : rows.eraseIdx k = rows.take k ++ rows.drop (k + 1) :=
      List.eraseIdx_eq_take_drop_succ rows k
    rw [herase]
    calc imsDeleteOne (memOfRows opr rows) k
        = imsDeleteOne (memOfRows opr (rows.take k ++ rows[k] :: rows.drop (k + 1))) k := by
          rw [← hdecomp]
      _ = memOfRows opr (rows.take k ++ rows.drop (k + 1)) := hsplit
  · have hlen : (memOfRows opr rows).row_data_starts.length = rows.length :=
      startsOf_length 0 rows
    rw [List.eraseIdx_of_length_le (by omega), imsDeleteOne, if_neg (by omega)]

theorem delete_rows_memOfRows (opr : Nat) (rows : List MRow)
    (hoffs : ∀ r ∈ rows, r.offs.length = opr) (ids : List Nat) :
    (memOfRows opr rows).delete_rows ids =
      memOfRows opr
        ((List.insertionSort (fun a b => b ≤ a) ids).foldl
          (fun acc k => acc.eraseIdx k) rows) := by
  rw [InMemoryStorage.delete_rows]
  generalize List.insertionSort (fun a b => b ≤ a) ids = l
  induction l generalizing rows with
  | nil => rfl
  | cons k ks ih =>
    simp only [List.foldl_cons]
    rw [imsDeleteOne_memOfRows opr rows hoffs k]
    exact ih _ (fun r hr => hoffs r ((List.eraseIdx_sublist rows k).subset hr))

/-- The start offset `row_data_starts[row_id]` both `delete_rows` and
`get_row_content` read. -/
def rowStart (s : InMemoryStorage) (k : Nat) : Nat := s.row_data_starts.getD k 0

/-- The end offset: the next row's start, or `data.len()` for the last
row. -/
def rowStop (s : InMemoryStorage) (k : Nat) : Nat :=
  if k + 1 < s.row_data_starts.length then s.row_data_starts.getD (k + 1) 0
  else s.data.length

/-- The `offsets_per_row`-sized window of `relative_column_offsets`
belonging to row `k`. -/
def offsWindow (s : InMemoryStorage) (k : Nat) : List Nat :=
  listSlice s.relative_column_offsets (k * s.offsets_per_row) ((k + 1) * s.offsets_per_row)

theorem rowStart_split (opr : Nat) (pre : List MRow) (r : MRow) (post : List MRow) :
    rowStart (memOfRows opr (pre ++ r :: post)) pre.length =
      (pre.map (fun t => t.payload.length)).sum := by
  have hS1len := startsOf_length 0 pre
  rw [rowStart]
  simp only [memOfRows, startsOf_append, Nat.zero_add, startsOf]
  rw [← hS1len]
  exact getD_append_mid _ _ _

theorem rowStop_split (opr : Nat) (pre : List MRow) (r : MRow) (post : List MRow) :
    rowStop (memOfRows opr (pre ++ r :: post)) pre.length =
      (pre.map (fun t => t.payload.length)).sum + r.payload.length := by
  have hS1len := startsOf_length 0 pre
  rw [rowStop]
  cases post with
  | nil =>
    simp only [memOfRows, List.map_append, List.flatten_append, List.map_cons,
      List.flatten_cons, List.map_nil, List.flatten_nil, List.append_nil,
      startsOf_append, Nat.zero_add, startsOf]
    rw [if_neg (by simp [hS1len])]
    rw [List.length_append, flatten_map_payload_length]
  | cons p post' =>
    simp only [memOfRows, startsOf_append, Nat.zero_add, startsOf]
    rw [if_pos (by simp [startsOf_length, hS1len])]
    have hsplit : startsOf 0 pre ++ (pre.map (fun t => t.payload.length)).sum ::
        ((pre.map (fun t => t.payload.length)).sum + r.payload.length) ::
          startsOf ((pre.map (fun t => t.payload.length)).sum + r.payload.length +
            p.payload.length) post' =
        (startsOf 0 pre ++ [(pre.map (fun t => t.payload.length)).sum]) ++
          ((pre.map (fun t => t.payload.length)).sum + r.payload.length) ::
            startsOf ((pre.map (fun t => t.payload.length)).sum + r.payload.length +
              p.payload.length) post' := by
      simp
    rw [hsplit]
    have hlen1 : (startsOf 0 pre ++ [(pre.map (fun t => t.payload.length)).sum]).length =
        pre.length + 1 := by simp [hS1len]
    rw [← hlen1]
    exact getD_append_mid _ _ _

theorem offsWindow_split (opr : Nat) (pre : List MRow) (r : MRow) (post : List MRow)
    (hoffs : ∀ x ∈ pre ++ r :: post, x.offs.length = opr) :
    offsWindow (memOfRows opr (pre ++ r :: post)) pre.length = r.offs := by
  have hpre : ∀ x ∈ pre, x.offs.length = opr := fun x hx => hoffs x (by simp [hx])
  have hr : r.offs.length = opr := hoffs r (by simp)
  have hO1len : ((pre.map MRow.offs).flatten).length = pre.length * opr :=
    flatten_offs_length opr pre hpre
  rw [offsWindow, listSlice]
  simp only [memOfRows, List.map_append, List.flatten_append, List.map_cons,
    List.flatten_cons]
  have htake : ((pre.map MRow.offs).flatten ++
        (r.offs ++ (post.map MRow.offs).flatten)).take ((pre.length + 1) * opr) =
      (pre.map MRow.offs).flatten ++ r.offs := by
    have h2 : (pre.length + 1) * opr = ((pre.map MRow.offs).flatten).length + opr := by
      rw [hO1len]; ring
    rw [h2, List.take_append, ← hr, List.take_left]
  rw [htake, ← hO1len, List.drop_left]

theorem get_row_content_eq (s : InMemoryStorage) (k : Nat) :
    s.get_row_content k =
      if k < s.row_data_starts.length then
        match sliceChecked s.data (rowStart s k) (rowStop s k),
          sliceChecked s.relative_column_offsets (k * s.offsets_per_row)
            ((k + 1) * s.offsets_per_row) with
        | some d, some o => some { data := d, offsets := o }
        | _, _ => none
      else none := rfl

theorem get_row_content_split (opr : Nat) (pre : List MRow) (r : MRow) (post : List MRow)
    (hoffs : ∀ x ∈ pre ++ r :: post, x.offs.length = opr) :
    (memOfRows opr (pre ++ r :: post)).get_row_content pre.length =
      some { data := r.payload, offsets := r.offs } := by
  have hpre : ∀ x ∈ pre, x.offs.length = opr := fun x hx => hoffs x (by simp [hx])
  have hr : r.offs.length = opr := hoffs r (by simp)
  have hO1len : ((pre.map MRow.offs).flatten).length = pre.length * opr :=
    flatten_offs_length opr pre hpre
  have hPA : ((pre.map MRow.payload).flatten).length =
      (pre.map (fun t => t.payload.length)).sum := flatten_map_payload_length pre
  have hS1len := startsOf_length 0 pre
  rw [get_row_content_eq, if_pos (by simp [memOfRows, startsOf_append, startsOf,
    startsOf_length, hS1len])]
  rw [rowStart_split, rowStop_split]
  set A := (pre.map (fun t => t.payload.length)).sum with hA
  have hPA' : ((pre.map MRow.payload).flatten).length = A := hPA
  have hdata : sliceChecked (memOfRows opr (pre ++ r :: post)).data A
      (A + r.payload.length) = some r.payload := by
    simp only [memOfRows, List.map_append, List.flatten_append, List.map_cons,
      List.flatten_cons, sliceChecked]
    have hc2 : A + r.payload.length ≤ ((pre.map MRow.payload).flatten ++
        (r.payload ++ (post.map MRow.payload).flatten)).length := by
      rw [List.length_append, List.length_append, hPA']
      omega
    rw [if_pos ⟨by omega, hc2⟩]
    have htake : ((pre.map MRow.payload).flatten ++
          (r.payload ++ (post.map MRow.payload).flatten)).take (A + r.payload.length) =
        (pre.map MRow.payload).flatten ++ r.payload := by
      rw [← hPA', List.take_append, List.take_left]
    rw [htake, ← hPA', List.drop_left]
  have hoffsw : sliceChecked (memOfRows opr (pre ++ r :: post)).relative_column_offsets
      (pre.length * opr) ((pre.length + 1) * opr) = some r.offs := by
    simp only [memOfRows, List.map_append, List.flatten_append, List.map_cons,
      List.flatten_cons, sliceChecked]
    have hc2 : (pre.length + 1) * opr ≤ ((pre.map MRow.offs).flatten ++
        (r.offs ++ (post.map MRow.offs).flatten)).length := by
      rw [List.length_append, List.length_append, hO1len, hr]
      calc (pre.length + 1) * opr = pre.length * opr + opr := by ring
        _ ≤ pre.length * opr + (opr + ((post.map MRow.offs).flatten).length) := by omega
    rw [if_pos ⟨Nat.mul_le_mul_right opr (by omega), hc2⟩]
    have htake : ((pre.map MRow.offs).flatten ++
          (r.offs ++ (post.map MRow.offs).flatten)).take ((pre.length + 1) * opr) =
        (pre.map MRow.offs).flatten ++ r.offs := by
      have h2 : (pre.length + 1) * opr = ((pre.map MRow.offs).flatten).length + opr := by
        rw [hO1len]; ring
      rw [h2, List.take_append, ← hr, List.take_left]
    rw [htake, ← hO1len, List.drop_left]
  rw [show (memOfRows opr (pre ++ r :: post)).offsets_per_row = opr from rfl]
  rw [hdata, hoffsw]

theorem rows_decomp (rows : List MRow) (k : Nat) (hk : k < rows.length) :
    rows = rows.take k ++ rows[k] :: rows.drop (k + 1) := by
  conv_lhs => rw [← List.take_append_drop k rows, List.drop_eq_getElem_cons hk]

theorem take_length_of_lt (rows : List MRow) (k : Nat) (hk : k < rows.length) :
    (rows.take k).length = k := by
  simp only [List.length_take]
  omega

theorem get_row_content_at (opr : Nat) (rows : List MRow)
    (hoffs : ∀ r ∈ rows, r.offs.length = opr) (k : Nat) (hk : k < rows.length) :
    (memOfRows opr rows).get_row_content k =
      some { data := rows[k].payload, offsets := rows[k].offs } := by
  have hdecomp := rows_decomp rows k hk
  have hklen := take_length_of_lt rows k hk
  have h := get_row_content_split opr (rows.take k) rows[k] (rows.drop (k + 1))
    (by rw [← hdecomp]; exact hoffs)
  rw [hklen] at h
  calc (memOfRows opr rows).get_row_content k
      = (memOfRows opr (rows.take k ++ rows[k] :: rows.drop (k + 1))).get_row_content k := by
        rw [← hdecomp]
    _ = some { data := rows[k].payload, offsets := rows[k].offs } := h

theorem offsWindow_at (opr : Nat) (rows : List MRow)
    (hoffs : ∀ r ∈ rows, r.offs.length = opr) (k : Nat) (hk : k < rows.length) :
    offsWindow (memOfRows opr rows) k = rows[k].offs := by
  have hdecomp := rows_decomp rows k hk
  have hklen := take_length_of_lt rows k hk
  have h := offsWindow_split opr (rows.take k) rows[k] (rows.drop (k + 1))
    (by rw [← hdecomp]; exact hoffs)
  rw [hklen] at h
  calc offsWindow (memOfRows opr rows) k
      = offsWindow (memOfRows opr (rows.take k ++ rows[k] :: rows.drop (k + 1))) k := by
        rw [← hdecomp]
    _ = rows[k].offs := h

theorem rowStartStop_at (opr : Nat) (rows : List MRow) (k : Nat) (hk : k < rows.length) :
    rowStart (memOfRows opr rows) k = ((rows.take k).map (fun t => t.payload.length)).sum ∧
      rowStop (memOfRows opr rows) k =
        ((rows.take k).map (fun t => t.payload.length)).sum + rows[k].payload.length := by
  have hdecomp := rows_decomp rows k hk
  have hklen := take_length_of_lt rows k hk
  have h1 := rowStart_split opr (rows.take k) rows[k] (rows.drop (k + 1))
  have h2 := rowStop_split opr (rows.take k) rows[k] (rows.drop (k + 1))
  rw [hklen] at h1 h2
  constructor
  · calc rowStart (memOfRows opr rows) k
        = rowStart (memOfRows opr (rows.take k ++ rows[k] :: rows.drop (k + 1))) k := by
          rw [← hdecomp]
      _ = _ := h1
  · calc rowStop (memOfRows opr rows) k
        = rowStop (memOfRows opr (rows.take k ++ rows[k] :: rows.drop (k + 1))) k := by
          rw [← hdecomp]
      _ = _ := h2

theorem mapM_option_some {α β : Type} (f : α → Option β) (g : α → β) (l : List α)
    (h : ∀ a ∈ l, f a = some (g a)) : l.mapM f = some (l.map g) := by
  rw [← List.mapM'_eq_mapM]
  induction l with
  | nil => rfl
  | cons a l ih =>
    rw [List.mapM', h a (List.mem_cons_self a l),
      ih (fun x hx => h x (List.mem_cons_of_mem a hx))]
    rfl

theorem scan_memOfRows (opr : Nat) (rows : List MRow)
    (hoffs : ∀ r ∈ rows, r.offs.length = opr) :
    (memOfRows opr rows).scan =
      some ((List.range rows.length).map
        (fun i => ((i, { data := (rows.getD i default).payload,
                         offsets := (rows.getD i default).offs }) : Nat × RowContent))) := by
  rw [InMemoryStorage.scan,
    show (memOfRows opr rows).row_data_starts.length = rows.length from startsOf_length 0 rows]
  apply mapM_option_some
  intro i hi
  have hi' : i < rows.length := List.mem_range.mp hi
  rw [get_row_content_at opr rows hoffs i hi', List.getD_eq_getElem rows default hi']
  rfl

/-! ## Well-formedness invariant of the in-memory storage (claim C8) -/

/-- Shape of one abstract row as `store` produces it. -/
structure MRowWF (opr : Nat) (r : MRow) : Prop where
  len : r.offs.length = opr
  first : r.offs.head? = some 0
  mono : r.offs.Sorted (· ≤ ·)
  last : r.offs.getLast? = some r.payload.length

/-- The invariant of claim C8, stated on the raw Rust representation. -/
structure MemWF (s : InMemoryStorage) : Prop where
  rel_len : s.relative_column_offsets.length = s.offsets_per_row * s.row_data_starts.length
  starts_mono : s.row_data_starts.Sorted (· ≤ ·)
  starts_le : ∀ v ∈ s.row_data_starts, v ≤ s.data.length
  window_first : ∀ k, k < s.row_data_starts.length → (offsWindow s k).head? = some 0
  window_mono : ∀ k, k < s.row_data_starts.length → (offsWindow s k).Sorted (· ≤ ·)
  window_last : ∀ k, k < s.row_data_starts.length →
    (offsWindow s k).getLast? = some (rowStop s k - rowStart s k)

theorem startsOf_ge (acc : Nat) (xs : List MRow) : ∀ v ∈ startsOf acc xs, acc ≤ v := by
  induction xs generalizing acc with
  | nil => simp [startsOf]
  | cons x xs ih =>
    intro v hv
    simp only [startsOf, List.mem_cons] at hv
    rcases hv with h | h
    · omega
    · have := ih (acc + x.payload.length) v h
      omega

theorem startsOf_sorted (acc : Nat) (xs : List MRow) :
    (startsOf acc xs).Sorted (· ≤ ·) := by
  induction xs generalizing acc with
  | nil => simp [startsOf]
  | cons x xs ih =>
    simp only [startsOf, List.sorted_cons]
    exact ⟨fun b hb => le_trans (by omega) (startsOf_ge _ _ b hb), ih _⟩

theorem startsOf_le_total (acc : Nat) (xs : List MRow) :
    ∀ v ∈ startsOf acc xs, v ≤ acc + (xs.map (fun r => r.payload.length)).sum := by
  induction xs generalizing acc with
  | nil => simp [startsOf]
  | cons x xs ih =>
    intro v hv
    simp only [startsOf, List.mem_cons] at hv
    simp only [List.map_cons, List.sum_cons]
    rcases hv with h | h
    · omega
    · have := ih (acc + x.payload.length) v h
      omega

theorem runningOffs_length (next : Nat) (l : List Nat) :
    (runningOffs next l).length = l.length := by
  induction l generalizing next with
  | nil => rfl
  | cons sz rest ih => simp [runningOffs, ih]

theorem runningOffs_ge (next : Nat) (l : List Nat) :
    ∀ v ∈ runningOffs next l, next ≤ v := by
  induction l generalizing next with
  | nil => simp [runningOffs]
  | cons sz rest ih =>
    intro v hv
    simp only [runningOffs, List.mem_cons] at hv
    rcases hv with h | h
    · omega
    · have := ih (next + sz) v h
      omega

theorem runningOffs_sorted (next : Nat) (l : List Nat) :
    (runningOffs next l).Sorted (· ≤ ·) := by
  induction l generalizing next with
  | nil => simp [runningOffs]
  | cons sz rest ih =>
    simp only [runningOffs, List.sorted_cons]
    exact ⟨fun b hb => le_trans (by omega) (runningOffs_ge _ _ b hb), ih _⟩

theorem runningOffs_getLast (next : Nat) (l : List Nat) :
    (next :: runningOffs next l).getLast? = some (next + l.sum) := by
  induction l generalizing next with
  | nil => simp [runningOffs]
  | cons sz rest ih =>
    rw [runningOffs, List.getLast?_cons_cons]
    rw [ih (next + sz)]
    simp [Nat.add_assoc]

theorem mrowOf_payload_length (mapping : List Nat) (row : Row) :
    (mrowOf mapping row).payload.length =
      (mapping.map (fun i => (row.get_column i).length)).sum := by
  rw [mrowOf, List.length_flatten, List.map_map]
  rfl

theorem mrowOf_wf (opr : Nat) (mapping : List Nat) (row : Row)
    (hlen : mapping.length + 1 = opr) : MRowWF opr (mrowOf mapping row) := by
  constructor
  · rw [mrowOf]
    simp [runningOffs_length, hlen.symm]
  · rfl
  · rw [mrowOf]
    simp only [List.sorted_cons]
    exact ⟨fun b hb => le_trans (Nat.zero_le _) (le_refl b), runningOffs_sorted _ _⟩
  · show (mrowOf mapping row).offs.getLast? = some (mrowOf mapping row).payload.length
    rw [mrowOf_payload_length]
    have h := runningOffs_getLast 0 (mapping.map (fun i => (row.get_column i).length))
    rw [Nat.zero_add] at h
    exact h

theorem memWF_memOfRows (opr : Nat) (rows : List MRow)
    (h : ∀ r ∈ rows, MRowWF opr r) : MemWF (memOfRows opr rows) := by
  have hoffs : ∀ r ∈ rows, r.offs.length = opr := fun r hr => (h r hr).len
  have hcount : (memOfRows opr rows).row_data_starts.length = rows.length :=
    startsOf_length 0 rows
  constructor
  · show ((rows.map MRow.offs).flatten).length = opr * (startsOf 0 rows).length
    rw [flatten_offs_length opr rows hoffs, startsOf_length, Nat.mul_comm]
  · exact startsOf_sorted 0 rows
  · intro v hv
    have := startsOf_le_total 0 rows v hv
    show v ≤ ((rows.map MRow.payload).flatten).length
    rw [flatten_map_payload_length]
    omega
  · intro k hk
    rw [hcount] at hk
    rw [offsWindow_at opr rows hoffs k hk]
    exact (h rows[k] (List.getElem_mem hk)).first
  · intro k hk
    rw [hcount] at hk
    rw [offsWindow_at opr rows hoffs k hk]
    exact (h rows[k] (List.getElem_mem hk)).mono
  · intro k hk
    rw [hcount] at hk
    rw [offsWindow_at opr rows hoffs k hk]
    obtain ⟨h1, h2⟩ := rowStartStop_at opr rows k hk
    rw [h1, h2, Nat.add_sub_cancel_left]
    exact (h rows[k] (List.getElem_mem hk)).last

/-- States reachable from `InMemoryStorage::new` by `store` calls whose
column mapping has the schema's arity (the engine always passes the
`project_required` map, of that length) and by arbitrary `delete_rows`
calls. -/
inductive MemReach (schema : TableSchema) : InMemoryStorage → Prop where
  | new : MemReach schema (InMemoryStorage.new schema)
  | store (s : InMemoryStorage) (rows : List Row) (mapping : List Nat) :
      MemReach schema s → mapping.length = schema.columns.length →
      MemReach schema (s.store rows mapping)
  | delete (s : InMemoryStorage) (ids : List Nat) :
      MemReach schema s → MemReach schema (s.delete_rows ids)

theorem memReach_rep (schema : TableSchema) (s : InMemoryStorage)
    (h : MemReach schema s) :
    ∃ rows : List MRow, s = memOfRows (schema.columns.length + 1) rows ∧
      ∀ r ∈ rows, MRowWF (schema.columns.length + 1) r := by
  induction h with
  | new => exact ⟨[], rfl, by simp⟩
  | store s rows mapping _ hmap ih =>
    obtain ⟨rs, rfl, hwf⟩ := ih
    refine ⟨rs ++ rows.map (mrowOf mapping), store_memOfRows _ rs rows mapping, ?_⟩
    intro r hr
    rcases List.mem_append.mp hr with hmem | hmem
    · exact hwf r hmem
    · obtain ⟨row, _, rfl⟩ := List.mem_map.mp hmem
      exact mrowOf_wf _ mapping row (by omega)
  | delete s ids _ ih =>
    obtain ⟨rs, rfl, hwf⟩ := ih
    refine ⟨_, delete_rows_memOfRows _ rs (fun r hr => (hwf r hr).len) ids, ?_⟩
    intro r hr
    have hsub : r ∈ rs := by
      have hfold : ∀ (l : List Nat) (base : List MRow),
          ∀ x ∈ l.foldl (fun acc k => acc.eraseIdx k) base, x ∈ base := by
        intro l
        induction l with
        | nil => intro base x hx; exact hx
        | cons k ks ih2 =>
          intro base x hx
          exact (List.eraseIdx_sublist base k).subset (ih2 (base.eraseIdx k) x hx)
      exact hfold _ rs r hr
    exact hwf r hsub

/-- C8: every `InMemoryStorage` state reachable from `new` by `store`
(with a schema-arity column mapping) and `delete_rows` calls keeps
`offsets_per_row` relative offsets per stored row, non-decreasing row
starts bounded by `data.len()`, and per-row offset windows that begin
at 0, are non-decreasing and end at the row's byte length; consequently
`get_row_content` succeeds on every in-range row id and `scan` yields
exactly one item per stored row without indexing out of bounds. -/
theorem inmemory_reachable_invariant (schema : TableSchema) (s : InMemoryStorage)
    (h : MemReach schema s) :
    MemWF s ∧
      (∀ k, k < s.row_data_starts.length → (s.get_row_content k).isSome) ∧
      ∃ items, s.scan = some items ∧ items.length = s.row_data_starts.length := by
  obtain ⟨rows, rfl, hwf⟩ := memReach_rep schema s h
  have hoffs : ∀ r ∈ rows, r.offs.length = schema.columns.length + 1 :=
    fun r hr => (hwf r hr).len
  have hcount : (memOfRows (schema.columns.length + 1) rows).row_data_starts.length =
      rows.length := startsOf_length 0 rows
  refine ⟨memWF_memOfRows _ rows hwf, ?_, ?_⟩
  · intro k hk
    rw [hcount] at hk
    rw [get_row_content_at _ rows hoffs k hk]
    rfl
  · refine ⟨_, scan_memOfRows _ rows hoffs, ?_⟩
    rw [hcount]
    simp

/-- C8 witness: the invariant instantiated at a one-column schema after
one store of one row. -/
theorem inmemory_reachable_invariant_witness :
    MemWF ((InMemoryStorage.new ⟨[⟨"id", DataType.U32⟩]⟩).store
        [⟨[1, 0, 0, 0], [0, 4]⟩] [0]) ∧
      (∀ k, k < ((InMemoryStorage.new ⟨[⟨"id", DataType.U32⟩]⟩).store
          [⟨[1, 0, 0, 0], [0, 4]⟩] [0]).row_data_starts.length →
        (((InMemoryStorage.new ⟨[⟨"id", DataType.U32⟩]⟩).store
          [⟨[1, 0, 0, 0], [0, 4]⟩] [0]).get_row_content k).isSome) ∧
      ∃ items, ((InMemoryStorage.new ⟨[⟨"id", DataType.U32⟩]⟩).store
          [⟨[1, 0, 0, 0], [0, 4]⟩] [0]).scan = some items ∧
        items.length = ((InMemoryStorage.new ⟨[⟨"id", DataType.U32⟩]⟩).store
          [⟨[1, 0, 0, 0], [0, 4]⟩] [0]).row_data_starts.length :=
  inmemory_reachable_invariant ⟨[⟨"id", DataType.U32⟩]⟩ _
    (MemReach.store _ _ _ MemReach.new rfl)

/-! ## Deletion order semantics (claims C10 and C3, in-memory part) -/

instance : IsTotal Nat (fun a b => b ≤ a) := ⟨fun a b => le_total b a⟩

instance : IsTrans Nat (fun a b => b ≤ a) := ⟨fun _ _ _ h1 h2 => le_trans h2 h1⟩

instance : IsAntisymm Nat (fun a b => b ≤ a) := ⟨fun _ _ h1 h2 => le_antisymm h2 h1⟩

/-- Keep the rows whose index (counting from `base`) is not in `ids`. -/
def keepNotIdxAux (ids : List Nat) : Nat → List MRow → List MRow
  | _, [] => []
  | base, r :: rs =>
    if base ∈ ids then keepNotIdxAux ids (base + 1) rs
    else r :: keepNotIdxAux ids (base + 1) rs

/-- The rows surviving a deletion of the distinct positions `ids`. -/
def keepNotIdx (ids : List Nat) (rows : List MRow) : List MRow :=
  keepNotIdxAux ids 0 rows

theorem keepNotIdxAux_all_small (ids : List Nat) (base : Nat) (rows : List MRow)
    (h : ∀ i ∈ ids, i < base) : keepNotIdxAux ids base rows = rows := by
  induction rows generalizing base with
  | nil => rfl
  | cons r rs ih =>
    rw [keepNotIdxAux, if_neg (fun hc => by have := h base hc; omega),
      ih (base + 1) (fun i hi => by have := h i hi; omega)]

theorem keepNotIdxAux_congr (ids ids' : List Nat) (h : ∀ i, i ∈ ids ↔ i ∈ ids')
    (base : Nat) (rows : List MRow) :
    keepNotIdxAux ids base rows = keepNotIdxAux ids' base rows := by
  induction rows generalizing base with
  | nil => rfl
  | cons r rs ih =>
    rw [keepNotIdxAux, keepNotIdxAux]
    by_cases hb : base ∈ ids
    · rw [if_pos hb, if_pos ((h base).mp hb), ih]
    · rw [if_neg hb, if_neg (fun hc => hb ((h base).mpr hc)), ih]

theorem keepNotIdxAux_erase_step (rows : List MRow) (base d : Nat) (ds : List Nat)
    (hd : d < rows.length) (hds : ∀ i ∈ ds, i < base + d) :
    keepNotIdxAux ds base (rows.eraseIdx d) =
      keepNotIdxAux ((base + d) :: ds) base rows := by
  induction rows generalizing base d ds with
  | nil => simp at hd
  | cons r rs ih =>
    cases d with
    | zero =>
      rw [show (r :: rs).eraseIdx 0 = rs from rfl]
      rw [keepNotIdxAux, if_pos (by simp)]
      rw [keepNotIdxAux_all_small ds base rs (fun i hi => by have := hds i hi; omega)]
      rw [keepNotIdxAux_all_small ((base + 0) :: ds) (base + 1) rs (by
        intro i hi
        rcases List.mem_cons.mp hi with rfl | hi'
        · omega
        · have := hds i hi'; omega)]
    | succ k =>
      rw [show (r :: rs).eraseIdx (k + 1) = r :: rs.eraseIdx k from rfl]
      rw [keepNotIdxAux, keepNotIdxAux]
      have hih := ih (base + 1) k ds (by simpa using hd)
        (fun i hi => by have := hds i hi; omega)
      have hshift : base + 1 + k = base + (k + 1) := by omega
      rw [hshift] at hih
      by_cases hb : base ∈ ds
      · rw [if_pos hb, if_pos (List.mem_cons_of_mem _ hb), hih]
      · rw [if_neg hb, if_neg (by
          intro hc
          rcases List.mem_cons.mp hc with hq | hq
          · omega
          · exact hb hq), hih]

theorem foldl_eraseIdx_desc (l : List Nat) (rows : List MRow)
    (hsort : l.Sorted (· > ·)) (hin : ∀ i ∈ l, i < rows.length) :
    l.foldl (fun acc k => acc.eraseIdx k) rows = keepNotIdx l rows := by
  induction l generalizing rows with
  | nil =>
    symm
    exact keepNotIdxAux_all_small [] 0 rows (by simp)
  | cons d ds ih =>
    simp only [List.foldl_cons]
    have hd : d < rows.length := hin d (List.mem_cons_self d ds)
    have hds : ∀ i ∈ ds, i < d := (List.sorted_cons.mp hsort).1
    rw [ih (rows.eraseIdx d) (List.sorted_cons.mp hsort).2 (fun i hi => by
      have h1 := hds i hi
      have hlen : (rows.eraseIdx d).length = rows.length - 1 := by
        rw [List.length_eraseIdx]
        simp [hd]
      omega)]
    have h := keepNotIdxAux_erase_step rows 0 d ds hd (by simpa using hds)
    rw [Nat.zero_add] at h
    exact h

theorem insertionSortDesc_sorted_gt (ids : List Nat) (hnd : ids.Nodup) :
    (List.insertionSort (fun a b => b ≤ a) ids).Sorted (· > ·) := by
  have hsorted : (List.insertionSort (fun a b => b ≤ a) ids).Sorted (fun a b => b ≤ a) :=
    List.sorted_insertionSort _ ids
  have hnd' : (List.insertionSort (fun a b => b ≤ a) ids).Nodup :=
    ((List.perm_insertionSort _ ids).nodup_iff).mpr hnd
  exact (hsorted.and hnd').imp (fun h => lt_of_le_of_ne h.1 (Ne.symm h.2))

theorem foldl_deleteOne_filter (s : InMemoryStorage) (l : List Nat)
    (hsort : l.Sorted (fun a b => b ≤ a)) :
    l.foldl imsDeleteOne s =
      (l.filter (fun i => decide (i < s.row_data_starts.length))).foldl imsDeleteOne s := by
  induction l with
  | nil => rfl
  | cons x xs ih =>
    by_cases hx : x < s.row_data_starts.length
    · rw [List.filter_eq_self.mpr (by
        intro a ha
        rcases List.mem_cons.mp ha with rfl | hi'
        · simpa using hx
        · have := (List.sorted_cons.mp hsort).1 a hi'
          simp only [decide_eq_true_eq]
          omega)]
    · simp only [List.foldl_cons, List.filter_cons]
      rw [if_neg (by simpa using hx)]
      rw [show imsDeleteOne s x = s from by rw [imsDeleteOne, if_neg hx]]
      exact ih (List.sorted_cons.mp hsort).2

theorem eq_of_perm_of_sortedDesc (l l' : List Nat)
    (hp : l.Perm l') (h1 : l.Sorted (fun a b => b ≤ a))
    (h2 : l'.Sorted (fun a b => b ≤ a)) : l = l' :=
  List.eq_of_perm_of_sorted hp h1 h2

theorem delete_rows_filter_in_range (s : InMemoryStorage) (ids : List Nat) :
    s.delete_rows ids =
      s.delete_rows (ids.filter (fun i => decide (i < s.row_data_starts.length))) := by
  rw [InMemoryStorage.delete_rows, InMemoryStorage.delete_rows]
  rw [foldl_deleteOne_filter s _ (List.sorted_insertionSort _ ids)]
  congr 1
  apply eq_of_perm_of_sortedDesc
  · exact ((List.perm_insertionSort _ ids).filter _).trans
      (List.perm_insertionSort _ _).symm
  · exact (List.sorted_insertionSort _ ids).filter _
  · exact List.sorted_insertionSort _ _

theorem delete_rows_perm_invariant (s : InMemoryStorage) (ids ids' : List Nat)
    (hp : ids.Perm ids') : s.delete_rows ids = s.delete_rows ids' := by
  rw [InMemoryStorage.delete_rows, InMemoryStorage.delete_rows]
  congr 1
  exact eq_of_perm_of_sortedDesc _ _
    ((List.perm_insertionSort _ ids).trans (hp.trans (List.perm_insertionSort _ ids').symm))
    (List.sorted_insertionSort _ _) (List.sorted_insertionSort _ _)

/-- C10 counterexample: the storage holds a single row and the in-range
id 0 occurs twice in the list; only that one row is removed — two
distinct rows are not removed, refuting the claim's universal
statement. -/
theorem delete_duplicate_single_row_counterexample :
    (memOfRows 2 [⟨[5], [0, 1]⟩]).row_data_starts.length = 1 ∧
      ((memOfRows 2 [⟨[5], [0, 1]⟩]).delete_rows [0, 0]).row_data_starts.length = 0 := by
  constructor
  · rfl
  · rfl

/-- C10 (amended): `delete_rows` applies the descending-sorted ids one
at a time against the shrinking list.  A duplicated in-range id `k`
removes original rows `k` and `k+1` when a row follows `k`; a `Nodup`
list of in-range ids removes exactly the rows it names. -/
theorem delete_rows_duplicate_and_distinct (opr : Nat) (rows : List MRow)
    (hoffs : ∀ r ∈ rows, r.offs.length = opr) :
    (∀ k, k + 1 < rows.length →
      (memOfRows opr rows).delete_rows [k, k] =
        memOfRows opr (rows.take k ++ rows.drop (k + 2))) ∧
    (∀ ids : List Nat, ids.Nodup → (∀ i ∈ ids, i < rows.length) →
      (memOfRows opr rows).delete_rows ids = memOfRows opr (keepNotIdx ids rows)) := by
  constructor
  · intro k hk
    rw [delete_rows_memOfRows opr rows hoffs [k, k]]
    congr 1
    have hsort : List.insertionSort (fun a b => b ≤ a) [k, k] = [k, k] := by
      simp [List.insertionSort, List.orderedInsert]
    rw [hsort]
    simp only [List.foldl_cons, List.foldl_nil]
    have h1 : rows.eraseIdx k = rows.take k ++ rows.drop (k + 1) :=
      List.eraseIdx_eq_take_drop_succ rows k
    have hdrop : rows.drop (k + 1) = rows[k + 1] :: rows.drop (k + 2) :=
      List.drop_eq_getElem_cons hk
    rw [h1, hdrop]
    have hmid := eraseIdx_append_mid (rows.take k) rows[k + 1] (rows.drop (k + 2))
    rw [take_length_of_lt rows k (by omega)] at hmid
    exact hmid
  · intro ids hnd hin
    rw [delete_rows_memOfRows opr rows hoffs ids]
    congr 1
    rw [foldl_eraseIdx_desc _ rows (insertionSortDesc_sorted_gt ids hnd)
      (fun i hi => hin i ((List.perm_insertionSort _ ids).subset hi))]
    exact keepNotIdxAux_congr _ _
      (fun i => (List.perm_insertionSort (fun a b => b ≤ a) ids).mem_iff) 0 rows

/-- C10 amended witness: three rows, the duplicated in-range id 0
removes original rows 0 and 1. -/
theorem delete_rows_duplicate_and_distinct_witness :
    (memOfRows 2 [⟨[1], [0, 1]⟩, ⟨[2], [0, 1]⟩, ⟨[3], [0, 1]⟩]).delete_rows [0, 0] =
      memOfRows 2 ([⟨[1], [0, 1]⟩, ⟨[2], [0, 1]⟩, ⟨[3], [0, 1]⟩].take 0 ++
        [⟨[1], [0, 1]⟩, ⟨[2], [0, 1]⟩, ⟨[3], [0, 1]⟩].drop 2) :=
  (delete_rows_duplicate_and_distinct 2 [⟨[1], [0, 1]⟩, ⟨[2], [0, 1]⟩, ⟨[3], [0, 1]⟩]
    (by decide)).1 0 (by decide)

/-! ## `storage.rs`: `DiskStorage`

The disk state is the file's byte list.  `usize` values are written as
8 little-endian bytes.  A panic of the Rust code (a failing
`read_exact` inside `expect`) is `none`; reaching end-of-file at a
record boundary ends a scan cleanly. -/

def HEADER_MAGIC : List Nat := [0x52, 0x44, 0x42, 0x49]

/-- `DiskStorage::new`: write the magic and `columns + 1` into a fresh
file. -/
def diskNew (schema : TableSchema) : List Nat :=
  HEADER_MAGIC ++ leEncode 8 (schema.columns.length + 1)

/-- The offsets `DiskStorage::store` writes for one row: 0, then the
running sums of the mapped columns' sizes computed from the row's
offsets table (`row.offsets[i+1] - row.offsets[i]`). -/
def diskRowOffsets (row : Row) (mapping : List Nat) : List Nat :=
  0 :: runningOffs 0
    (mapping.map (fun i => row.offsets.getD (i + 1) 0 - row.offsets.getD i 0))

/-- The record `DiskStorage::store` appends for one row: tombstone 0,
the offsets as u64 little-endian, `row.data.len()` as the content
length, then the mapped columns' bytes. -/
def diskEncodeRow (row : Row) (mapping : List Nat) : List Nat :=
  0 :: (((diskRowOffsets row mapping).map (leEncode 8)).flatten ++
    (leEncode 8 row.data.length ++ (mapping.map (fun i => row.get_column i)).flatten))

/-- `DiskStorage::store`: seek to the end and append one record per
row, then flush. -/
def diskStore (file : List Nat) (rows : List Row) (mapping : List Nat) : List Nat :=
  file ++ (rows.map (fun row => diskEncodeRow row mapping)).flatten

/-- Split a byte run into consecutive u64 little-endian values, as the
scan decodes the offsets buffer. -/
def decodeU64s : List Nat → List Nat
  | [] => []
  | b :: rest => leDecode (b :: rest.take 7) :: decodeU64s (rest.drop 7)
termination_by l => l.length
decreasing_by
  simp_wf
  simp_arith [List.length_drop]

/-- The record loop of `DiskStorage::scan`: read the tombstone byte
(end-of-file here ends the scan), skip a tombstoned record, and
materialize a live record; any other truncated read panics (`none`).
The row counter advances on dead records too. -/
def diskScanRecords (obytes : Nat) : List Nat → Nat → Option (List (Nat × RowContent))
  | [], _ => some []
  | t :: rest, row_num =>
    if t ≠ 0 then
      if obytes + 8 ≤ rest.length then
        diskScanRecords obytes
          (rest.drop (obytes + 8 + leDecode (listSlice rest obytes (obytes + 8))))
          (row_num + 1)
      else none
    else
      if h : obytes + 8 ≤ rest.length then
        if leDecode (listSlice rest obytes (obytes + 8)) ≤ (rest.drop (obytes + 8)).length then
          (diskScanRecords obytes
            ((rest.drop (obytes + 8)).drop (leDecode (listSlice rest obytes (obytes + 8))))
            (row_num + 1)).map
            (fun items =>
              (row_num,
                { data := (rest.drop (obytes + 8)).take
                    (leDecode (listSlice rest obytes (obytes + 8)))
                  offsets := decodeU64s (rest.take obytes) }) :: items)
        else none
      else none
termination_by l _ => l.length
decreasing_by
  all_goals simp_wf
  all_goals simp_arith [List.length_drop]

/-- `DiskStorage::scan`: open the file, check the magic, read
`offsets_per_row`, then stream the records. -/
def diskScan (file : List Nat) : Option (List (Nat × RowContent)) :=
  match file with
  | m0 :: m1 :: m2 :: m3 :: rest =>
    if [m0, m1, m2, m3] = HEADER_MAGIC then
      if 8 ≤ rest.length then
        diskScanRecords (leDecode (rest.take 8) * 8) (rest.drop 8) 0
      else none
    else none
  | _ => none

/-- The loop of `DiskStorage::delete_rows` over ascending ids:
`processed` is the bytes before the reader, `remaining` the bytes from
the reader's position on.  Stamping writes byte 1 at the reader's
position without advancing; at end-of-file the write appends the
byte.  Skipping a record reads its content length; a truncated read
panics (`none`). -/
def diskDeleteAux (obytes : Nat) : List Nat → Nat → List Nat → List Nat → Option (List Nat)
  | [], _, processed, remaining => some (processed ++ remaining)
  | id :: ids, row_num, processed, remaining =>
    if row_num = id then
      match remaining with
      | [] => diskDeleteAux obytes ids row_num processed [1]
      | _ :: rest => diskDeleteAux obytes ids row_num processed (1 :: rest)
    else
      if 1 + obytes + 8 ≤ remaining.length then
        diskDeleteAux obytes (id :: ids) (row_num + 1)
          (processed ++ remaining.take
            (1 + obytes + 8 + leDecode (listSlice remaining (1 + obytes) (1 + obytes + 8))))
          (remaining.drop
            (1 + obytes + 8 + leDecode (listSlice remaining (1 + obytes) (1 + obytes + 8))))
      else none
termination_by ids _ _ remaining => (ids.length, remaining.length)
decreasing_by
  all_goals simp_wf
  · omega
  · omega
  · right
    have : remaining.length ≥ 1 + obytes + 8 := by omega
    simp [List.length_drop]
    omega

/-- `DiskStorage::delete_rows`: sort the ids ascending, reopen the
file (validating the header) and stamp each id's tombstone byte. -/
def diskDeleteRows (file : List Nat) (ids : List Nat) : Option (List Nat) :=
  match file with
  | m0 :: m1 :: m2 :: m3 :: rest =>
    if [m0, m1, m2, m3] = HEADER_MAGIC then
      if 8 ≤ rest.length then
        diskDeleteAux (leDecode (rest.take 8) * 8) (List.insertionSort (· ≤ ·) ids) 0
          ([m0, m1, m2, m3] ++ rest.take 8) (rest.drop 8)
      else none
    else none
  | _ => none

/-! ## Abstract view of the disk file -/

/-- One record of the file: tombstone byte, u64 offset values,
payload.  The content-length field always equals the payload length in
files the engine writes. -/
structure DiskRec where
  tomb : Nat
  offs : List Nat
  payload : List Nat
deriving DecidableEq, Repr

def encodeRec (r : DiskRec) : List Nat :=
  r.tomb :: ((r.offs.map (leEncode 8)).flatten ++
    (leEncode 8 r.payload.length ++ r.payload))

def encodeRecs (rs : List DiskRec) : List Nat := (rs.map encodeRec).flatten

def diskFileOf (opr : Nat) (rs : List DiskRec) : List Nat :=
  HEADER_MAGIC ++ leEncode 8 opr ++ encodeRecs rs

structure DiskRecWF (opr : Nat) (r : DiskRec) : Prop where
  tomb_byte : r.tomb < 256
  offs_len : r.offs.length = opr
  offs_bound : ∀ o ∈ r.offs, o < 2 ^ 64
  payload_bound : r.payload.length < 2 ^ 64

/-- What a scan yields: the live records in file order, each with its
record ordinal counting dead records too. -/
def scanExpected : List DiskRec → Nat → List (Nat × RowContent)
  | [], _ => []
  | r :: rest, row0 =>
    if r.tomb ≠ 0 then scanExpected rest (row0 + 1)
    else (row0, { data := r.payload, offsets := r.offs }) :: scanExpected rest (row0 + 1)

/-- The live rows of a record list, as abstract in-memory rows. -/
def liveRows : List DiskRec → List MRow
  | [] => []
  | r :: rest =>
    if r.tomb ≠ 0 then liveRows rest
    else { payload := r.payload, offs := r.offs } :: liveRows rest

/-- The record ordinals of the live records, i.e. the row ids a scan
reports. -/
def liveOrdinalsAux (base : Nat) : List DiskRec → List Nat
  | [] => []
  | r :: rest =>
    if r.tomb ≠ 0 then liveOrdinalsAux (base + 1) rest
    else base :: liveOrdinalsAux (base + 1) rest

def liveOrdinals (rs : List DiskRec) : List Nat := liveOrdinalsAux 0 rs

/-- Set the tombstone of every record whose ordinal is in `ids`. -/
def stampRecsAux (ids : List Nat) : Nat → List DiskRec → List DiskRec
  | _, [] => []
  | base, r :: rest =>
    (if base ∈ ids then { r with tomb := 1 } else r) :: stampRecsAux ids (base + 1) rest

def stampRecs (ids : List Nat) (rs : List DiskRec) : List DiskRec :=
  stampRecsAux ids 0 rs

/-- The record ordinals of the live records whose live position is in
`ps`: ordinals count from `b`, live positions from `c`. -/
def ordsOfPositionsAux (ps : List Nat) : Nat → Nat → List DiskRec → List Nat
  | _, _, [] => []
  | b, c, r :: rest =>
    if r.tomb ≠ 0 then ordsOfPositionsAux ps (b + 1) c rest
    else (if c ∈ ps then [b] else []) ++ ordsOfPositionsAux ps (b + 1) (c + 1) rest

theorem decodeU64s_block (l rest : List Nat) (h : l.length = 8) :
    decodeU64s (l ++ rest) = leDecode l :: decodeU64s rest := by
  cases l with
  | nil => simp at h
  | cons b l7 =>
    have h7 : l7.length = 7 := by simpa using h
    rw [List.cons_append, decodeU64s, List.take_left' h7, List.drop_left' h7]

theorem decodeU64s_encodes (offs : List Nat) (h : ∀ o ∈ offs, o < 2 ^ 64) :
    decodeU64s ((offs.map (leEncode 8)).flatten) = offs := by
  induction offs with
  | nil => simp [decodeU64s]
  | cons o os ih =>
    rw [List.map_cons, List.flatten_cons, decodeU64s_block _ _ (leEncode_length 8 o)]
    rw [leDecode_leEncode, ih (fun x hx => h x (List.mem_cons_of_mem o hx))]
    have hb := h o (List.mem_cons_self o os)
    have h64 : (2 : Nat) ^ (8 * 8) = 2 ^ 64 := by norm_num
    rw [h64, Nat.mod_eq_of_lt hb]

theorem flatten_leEncode_length (offs : List Nat) :
    ((offs.map (leEncode 8)).flatten).length = 8 * offs.length := by
  induction offs with
  | nil => simp
  | cons o os ih =>
    simp only [List.map_cons, List.flatten_cons, List.length_append, leEncode_length, ih,
      List.length_cons]
    omega

theorem listSlice_append_block (A B X : List Nat) :
    listSlice (A ++ (B ++ X)) A.length (A.length + B.length) = B := by
  rw [listSlice, List.take_append, List.take_left, List.drop_left]

theorem drop_append3 (A B C D : List Nat) :
    (A ++ (B ++ (C ++ D))).drop (A.length + (B.length + C.length)) = D := by
  rw [List.drop_append, List.drop_append]
  exact List.drop_left C D

theorem diskScanRecords_encodeRecs (opr : Nat) (rs : List DiskRec)
    (hwf : ∀ r ∈ rs, DiskRecWF opr r) (row0 : Nat) :
    diskScanRecords (opr * 8) (encodeRecs rs) row0 = some (scanExpected rs row0) := by
  induction rs generalizing row0 with
  | nil => simp [encodeRecs, diskScanRecords, scanExpected]
  | cons r rest ih =>
    have hr := hwf r (List.mem_cons_self r rest)
    have hrest : ∀ x ∈ rest, DiskRecWF opr x := fun x hx => hwf x (List.mem_cons_of_mem r hx)
    have hAlen : ((r.offs.map (leEncode 8)).flatten).length = opr * 8 := by
      rw [flatten_leEncode_length, hr.offs_len]
      ring
    have hstream : encodeRecs (r :: rest) =
        r.tomb :: ((r.offs.map (leEncode 8)).flatten ++
          (leEncode 8 r.payload.length ++ (r.payload ++ encodeRecs rest))) := by
      simp [encodeRecs, encodeRec, List.append_assoc]
    have hslice : listSlice ((r.offs.map (leEncode 8)).flatten ++
          (leEncode 8 r.payload.length ++ (r.payload ++ encodeRecs rest)))
        (opr * 8) (opr * 8 + 8) = leEncode 8 r.payload.length := by
      have h := listSlice_append_block ((r.offs.map (leEncode 8)).flatten)
        (leEncode 8 r.payload.length) (r.payload ++ encodeRecs rest)
      rwa [hAlen, leEncode_length] at h
    have hdec : leDecode (leEncode 8 r.payload.length) = r.payload.length := by
      rw [leDecode_leEncode]
      have h64 : (2 : Nat) ^ (8 * 8) = 2 ^ 64 := by norm_num
      rw [h64, Nat.mod_eq_of_lt hr.payload_bound]
    have hlen : opr * 8 + 8 ≤ ((r.offs.map (leEncode 8)).flatten ++
        (leEncode 8 r.payload.length ++ (r.payload ++ encodeRecs rest))).length := by
      simp only [List.length_append, hAlen, leEncode_length]
      omega
    have hdroprest : ((r.offs.map (leEncode 8)).flatten ++
          (leEncode 8 r.payload.length ++ (r.payload ++ encodeRecs rest))).drop
        (opr * 8 + 8) = r.payload ++ encodeRecs rest := by
      have h := @List.drop_append Nat ((r.offs.map (leEncode 8)).flatten)
        (leEncode 8 r.payload.length ++ (r.payload ++ encodeRecs rest)) 8
      rw [hAlen] at h
      rw [h]
      exact List.drop_left' (leEncode_length 8 r.payload.length)
    rw [hstream, diskScanRecords]
    by_cases htomb : r.tomb ≠ 0
    · rw [if_pos htomb, if_pos hlen, hslice, hdec]
      have hdropall : ((r.offs.map (leEncode 8)).flatten ++
            (leEncode 8 r.payload.length ++ (r.payload ++ encodeRecs rest))).drop
          (opr * 8 + 8 + r.payload.length) = encodeRecs rest := by
        have h := drop_append3 ((r.offs.map (leEncode 8)).flatten)
          (leEncode 8 r.payload.length) r.payload (encodeRecs rest)
        rw [hAlen, leEncode_length] at h
        rw [show opr * 8 + 8 + r.payload.length = opr * 8 + (8 + r.payload.length) from by
          omega]
        exact h
      rw [hdropall, ih hrest (row0 + 1)]
      rw [scanExpected, if_pos htomb]
    · rw [if_neg htomb]
      rw [dif_pos hlen]
      rw [hslice, hdec, hdroprest]
      rw [if_pos (by rw [List.length_append]; omega)]
      have htakeA : ((r.offs.map (leEncode 8)).flatten ++
            (leEncode 8 r.payload.length ++ (r.payload ++ encodeRecs rest))).take (opr * 8) =
          (r.offs.map (leEncode 8)).flatten := List.take_left' hAlen
      rw [htakeA, List.take_left, List.drop_left,
        decodeU64s_encodes r.offs hr.offs_bound, ih hrest (row0 + 1)]
      rw [scanExpected, if_neg htomb]
      rfl

/-- C5: scanning a well-formed disk file (magic header, records of
`opr` u64 offsets whose length field equals the payload length) yields
exactly the records whose tombstone byte is 0, in file order; each
item's row id is the record's ordinal counting live and tombstoned
records alike, and end-of-file at a record boundary ends the scan
without error. -/
theorem disk_scan_wellformed (opr : Nat) (hopr : opr < 2 ^ 64) (rs : List DiskRec)
    (hwf : ∀ r ∈ rs, DiskRecWF opr r) :
    diskScan (diskFileOf opr rs) = some (scanExpected rs 0) := by
  rw [show diskFileOf opr rs =
    0x52 :: 0x44 :: 0x42 :: 0x49 :: (leEncode 8 opr ++ encodeRecs rs) from by
      simp [diskFileOf, HEADER_MAGIC]]
  rw [diskScan]
  rw [if_pos (show ([82, 68, 66, 73] : List Nat) = HEADER_MAGIC from rfl),
    if_pos (by simp [leEncode_length])]
  rw [List.take_left' (leEncode_length 8 opr), List.drop_left' (leEncode_length 8 opr)]
  rw [leDecode_leEncode]
  rw [show (2 : Nat) ^ (8 * 8) = 2 ^ 64 from by norm_num, Nat.mod_eq_of_lt hopr]
  exact diskScanRecords_encodeRecs opr rs hwf 0

/-- C5 witness: a two-record file, the second record tombstoned. -/
theorem disk_scan_wellformed_witness :
    diskScan (diskFileOf 2 [⟨0, [0, 1], [7]⟩, ⟨1, [0, 1], [8]⟩]) =
      some (scanExpected [⟨0, [0, 1], [7]⟩, ⟨1, [0, 1], [8]⟩] 0) :=
  disk_scan_wellformed 2 (by norm_num) _ (by
    intro r hr
    rcases List.mem_cons.mp hr with rfl | hr2
    · exact ⟨by norm_num, rfl, by decide, by norm_num⟩
    rcases List.mem_cons.mp hr2 with rfl | hr3
    · exact ⟨by norm_num, rfl, by decide, by norm_num⟩
    · simp at hr3)

/-! ## Disk store and delete against the record abstraction -/

/-- The record `store` writes for one input row. -/
def diskRecOf (mapping : List Nat) (row : Row) : DiskRec :=
  { tomb := 0
    offs := diskRowOffsets row mapping
    payload := (mapping.map (fun i => row.get_column i)).flatten }

theorem encodeRecs_cons (r : DiskRec) (rest : List DiskRec) :
    encodeRecs (r :: rest) = encodeRec r ++ encodeRecs rest := by
  simp [encodeRecs]

theorem encodeRec_length (opr : Nat) (r : DiskRec) (h : r.offs.length = opr) :
    (encodeRec r).length = 1 + opr * 8 + 8 + r.payload.length := by
  rw [encodeRec, List.length_cons, List.length_append, List.length_append,
    flatten_leEncode_length, leEncode_length, h]
  omega

theorem diskEncodeRow_eq_encodeRec (row : Row) (mapping : List Nat)
    (hlen : ((mapping.map (fun i => row.get_column i)).flatten).length = row.data.length) :
    diskEncodeRow row mapping = encodeRec (diskRecOf mapping row) := by
  rw [diskEncodeRow, encodeRec, diskRecOf]
  simp [hlen]

theorem diskStore_fileOf (opr : Nat) (rs : List DiskRec) (rows : List Row)
    (mapping : List Nat)
    (hlen : ∀ row ∈ rows,
      ((mapping.map (fun i => row.get_column i)).flatten).length = row.data.length) :
    diskStore (diskFileOf opr rs) rows mapping =
      diskFileOf opr (rs ++ rows.map (diskRecOf mapping)) := by
  have hmap : (rows.map (fun row => diskEncodeRow row mapping)) =
      (rows.map (diskRecOf mapping)).map encodeRec := by
    rw [List.map_map]
    apply List.map_congr_left
    intro row hrow
    exact diskEncodeRow_eq_encodeRec row mapping (hlen row hrow)
  rw [diskStore, diskFileOf, diskFileOf, encodeRecs, encodeRecs, hmap, List.map_append,
    List.flatten_append]
  simp [List.append_assoc]

/-- Well-formed input row: offsets start at 0, are non-decreasing and
end at the buffer length (the `Row` invariant of the engine). -/
structure RowWF (r : Row) : Prop where
  first : r.offsets.head? = some 0
  mono : r.offsets.Sorted (· ≤ ·)
  last : r.offsets.getLast? = some r.data.length

theorem sorted_le_getLast (l : List Nat) (L : Nat) (hs : l.Sorted (· ≤ ·))
    (hl : l.getLast? = some L) : ∀ x ∈ l, x ≤ L := by
  induction l with
  | nil => simp
  | cons a t ih =>
    intro x hx
    cases t with
    | nil =>
      simp only [List.getLast?_singleton, Option.some.injEq] at hl
      simp only [List.mem_singleton] at hx
      omega
    | cons b t2 =>
      rw [List.getLast?_cons_cons] at hl
      rcases List.mem_cons.mp hx with rfl | hx'
      · have hL : L ∈ b :: t2 := by
          obtain ⟨hne, heq⟩ := List.mem_getLast?_eq_getLast (Option.mem_def.mpr hl)
          rw [heq]
          exact List.getLast_mem hne
        exact le_trans ((List.sorted_cons.mp hs).1 L hL) (le_refl L)
      · exact ih (List.sorted_cons.mp hs).2 hl x hx'

theorem get_column_length_wf (r : Row) (hwf : RowWF r) (i : Nat)
    (hi : i + 1 < r.offsets.length) :
    (r.get_column i).length = r.offsets.getD (i + 1) 0 - r.offsets.getD i 0 := by
  rw [Row.get_column, listSlice]
  have hi0 : i < r.offsets.length := by omega
  rw [List.getD_eq_getElem _ _ hi0, List.getD_eq_getElem _ _ hi]
  have hmono : r.offsets[i] ≤ r.offsets[i + 1] :=
    List.pairwise_iff_getElem.mp hwf.mono i (i + 1) hi0 hi (by omega)
  have hlast : r.offsets[i + 1] ≤ r.data.length :=
    sorted_le_getLast r.offsets r.data.length hwf.mono hwf.last _ (List.getElem_mem hi)
  simp only [List.length_drop, List.length_take]
  omega

theorem diskRowOffsets_eq_mrow_offs (row : Row) (mapping : List Nat) (hwf : RowWF row)
    (hmap : ∀ i ∈ mapping, i + 1 < row.offsets.length) :
    diskRowOffsets row mapping = (mrowOf mapping row).offs := by
  rw [diskRowOffsets, mrowOf]
  congr 2
  apply List.map_congr_left
  intro i hi
  exact (get_column_length_wf row hwf i (hmap i hi)).symm

/-- The abstract in-memory row a disk record carries. -/
def recToMRow (r : DiskRec) : MRow := { payload := r.payload, offs := r.offs }

theorem recToMRow_diskRecOf (mapping : List Nat) (row : Row) (hwf : RowWF row)
    (hmap : ∀ i ∈ mapping, i + 1 < row.offsets.length) :
    recToMRow (diskRecOf mapping row) = mrowOf mapping row := by
  rw [recToMRow, diskRecOf]
  have h := diskRowOffsets_eq_mrow_offs row mapping hwf hmap
  rw [mrowOf] at h ⊢
  simp only at h ⊢
  rw [h]

theorem runningOffs_le_total (next : Nat) (l : List Nat) :
    ∀ v ∈ runningOffs next l, v ≤ next + l.sum := by
  induction l generalizing next with
  | nil => simp [runningOffs]
  | cons sz rest ih =>
    intro v hv
    simp only [runningOffs, List.mem_cons] at hv
    simp only [List.sum_cons]
    rcases hv with h | h
    · omega
    · have := ih (next + sz) v h
      omega

theorem diskRecOf_wf (opr : Nat) (mapping : List Nat) (row : Row) (hwf : RowWF row)
    (hmap : ∀ i ∈ mapping, i + 1 < row.offsets.length)
    (harity : mapping.length + 1 = opr)
    (hsize : row.data.length < 2 ^ 64)
    (hlen : ((mapping.map (fun i => row.get_column i)).flatten).length = row.data.length) :
    DiskRecWF opr (diskRecOf mapping row) := by
  have hsum : (mapping.map (fun i => (row.get_column i).length)).sum = row.data.length := by
    rw [← hlen, List.length_flatten, List.map_map]
    rfl
  constructor
  · norm_num [diskRecOf]
  · rw [diskRecOf]
    simp only [diskRowOffsets]
    rw [List.length_cons, runningOffs_length]
    simpa using harity
  · rw [diskRecOf]
    simp only [diskRowOffsets]
    intro o ho
    rcases List.mem_cons.mp ho with rfl | ho'
    · positivity
    · have hb := runningOffs_le_total 0
        (mapping.map (fun i => row.offsets.getD (i + 1) 0 - row.offsets.getD i 0)) o ho'
      have hsum2 : (mapping.map
          (fun i => row.offsets.getD (i + 1) 0 - row.offsets.getD i 0)).sum =
          (mapping.map (fun i => (row.get_column i).length)).sum := by
        congr 1
        apply List.map_congr_left
        intro i hi
        exact (get_column_length_wf row hwf i (hmap i hi)).symm
      rw [hsum2, hsum] at hb
      omega
  · rw [diskRecOf]
    simpa [hlen] using hsize

theorem stampRecsAux_nil (base : Nat) (rs : List DiskRec) :
    stampRecsAux [] base rs = rs := by
  induction rs generalizing base with
  | nil => rfl
  | cons r rest ih => simp [stampRecsAux, ih]

theorem stampRecsAux_small (v : Nat) (ids : List Nat) (base : Nat) (rs : List DiskRec)
    (h : v < base) : stampRecsAux (v :: ids) base rs = stampRecsAux ids base rs := by
  induction rs generalizing base with
  | nil => rfl
  | cons r rest ih =>
    rw [stampRecsAux, stampRecsAux, ih (base + 1) (by omega)]
    have hiff : (base ∈ v :: ids) ↔ (base ∈ ids) := by
      simp only [List.mem_cons]
      constructor
      · rintro (rfl | hx)
        · omega
        · exact hx
      · exact Or.inr
    congr 1
    exact if_congr hiff rfl rfl

theorem stampRecsAux_congr (ids ids' : List Nat) (base : Nat) (rs : List DiskRec)
    (h : ∀ j, base ≤ j → (j ∈ ids ↔ j ∈ ids')) :
    stampRecsAux ids base rs = stampRecsAux ids' base rs := by
  induction rs generalizing base with
  | nil => rfl
  | cons r rest ih =>
    rw [stampRecsAux, stampRecsAux, ih (base + 1) (fun j hj => h j (by omega))]
    congr 1
    exact if_congr (h base (le_refl base)) rfl rfl

theorem stampRecsAux_stamp_head (id : Nat) (ids' : List Nat) (row0 : Nat) (r : DiskRec)
    (rest : List DiskRec) (heq : row0 = id) :
    stampRecsAux ids' row0 ({ r with tomb := 1 } :: rest) =
      stampRecsAux (id :: ids') row0 (r :: rest) := by
  rw [stampRecsAux, stampRecsAux, stampRecsAux_small id ids' (row0 + 1) rest (by omega)]
  have hmem : row0 ∈ id :: ids' := by
    rw [heq]
    exact List.mem_cons_self id ids'
  by_cases hb : row0 ∈ ids'
  · rw [if_pos hb, if_pos hmem]
  · rw [if_neg hb, if_pos hmem]

theorem listSlice_cons (t : Nat) (Z : List Nat) (a b : Nat) :
    listSlice (t :: Z) (1 + a) (1 + a + b) = listSlice Z a (a + b) := by
  rw [listSlice, listSlice]
  rw [show 1 + a + b = (a + b) + 1 from by omega, List.take_succ_cons,
    show 1 + a = a + 1 from by omega, List.drop_succ_cons]

set_option maxHeartbeats 1000000 in
/-- The walk of `delete_rows` over an encoded record list: with
ascending in-range ids it stamps exactly the named ordinals and leaves
every other byte unchanged. -/
theorem diskDeleteAux_encodeRecs (opr : Nat) (ids : List Nat) :
    ∀ (rs : List DiskRec) (row0 : Nat) (processed : List Nat),
      (∀ r ∈ rs, DiskRecWF opr r) → ids.Sorted (· ≤ ·) →
      (∀ i ∈ ids, row0 ≤ i) → (∀ i ∈ ids, i < row0 + rs.length) →
      diskDeleteAux (opr * 8) ids row0 processed (encodeRecs rs) =
        some (processed ++ encodeRecs (stampRecsAux ids row0 rs)) := by
  induction ids with
  | nil =>
    intro rs row0 processed _ _ _ _
    rw [diskDeleteAux, stampRecsAux_nil]
  | cons id ids' ihIds =>
    intro rs
    induction rs with
    | nil =>
      intro row0 processed _ _ hge hlt
      exfalso
      have h1 := hge id (List.mem_cons_self id ids')
      have h2 := hlt id (List.mem_cons_self id ids')
      simp at h2
      omega
    | cons r rest ihRs =>
      intro row0 processed hwf hsort hge hlt
      have hr := hwf r (List.mem_cons_self r rest)
      have hrest : ∀ x ∈ rest, DiskRecWF opr x :=
        fun x hx => hwf x (List.mem_cons_of_mem r hx)
      have hAlen : ((r.offs.map (leEncode 8)).flatten).length = opr * 8 := by
        rw [flatten_leEncode_length, hr.offs_len]
        ring
      have hstream : encodeRecs (r :: rest) =
          r.tomb :: ((r.offs.map (leEncode 8)).flatten ++
            (leEncode 8 r.payload.length ++ (r.payload ++ encodeRecs rest))) := by
        simp [encodeRecs, encodeRec, List.append_assoc]
      by_cases heq : row0 = id
      · -- stamp the current record and continue with the rest of the ids
        rw [hstream, diskDeleteAux, if_pos heq]
        have hstamped : (1 : Nat) :: ((r.offs.map (leEncode 8)).flatten ++
            (leEncode 8 r.payload.length ++ (r.payload ++ encodeRecs rest))) =
            encodeRecs ({ r with tomb := 1 } :: rest) := by
          simp [encodeRecs, encodeRec, List.append_assoc]
        rw [hstamped]
        have hih := ihIds ({ r with tomb := 1 } :: rest) row0 processed
          (by
            intro x hx
            rcases List.mem_cons.mp hx with rfl | hx'
            · exact ⟨by norm_num, hr.offs_len, hr.offs_bound, hr.payload_bound⟩
            · exact hrest x hx')
          (List.sorted_cons.mp hsort).2
          (fun i hi => le_trans (hge id (List.mem_cons_self id ids'))
            ((List.sorted_cons.mp hsort).1 i hi))
          (fun i hi => by
            have := hlt i (List.mem_cons_of_mem id hi)
            simpa using this)
        rw [hih]
        congr 2
        exact congrArg encodeRecs (stampRecsAux_stamp_head id ids' row0 r rest heq)
      · -- skip the current record
        rw [hstream, diskDeleteAux, if_neg heq]
        have hlen1 : 1 + opr * 8 + 8 ≤ (r.tomb :: ((r.offs.map (leEncode 8)).flatten ++
            (leEncode 8 r.payload.length ++ (r.payload ++ encodeRecs rest)))).length := by
          simp only [List.length_cons, List.length_append, hAlen, leEncode_length]
          omega
        rw [if_pos (by simpa using hlen1)]
        have hslice : listSlice (r.tomb :: ((r.offs.map (leEncode 8)).flatten ++
              (leEncode 8 r.payload.length ++ (r.payload ++ encodeRecs rest))))
            (1 + opr * 8) (1 + opr * 8 + 8) = leEncode 8 r.payload.length := by
          rw [listSlice_cons]
          have h := listSlice_append_block ((r.offs.map (leEncode 8)).flatten)
            (leEncode 8 r.payload.length) (r.payload ++ encodeRecs rest)
          rwa [hAlen, leEncode_length] at h
        have hdec : leDecode (leEncode 8 r.payload.length) = r.payload.length := by
          rw [leDecode_leEncode]
          rw [show (2 : Nat) ^ (8 * 8) = 2 ^ 64 from by norm_num,
            Nat.mod_eq_of_lt hr.payload_bound]
        rw [hslice, hdec]
        have hreclen : 1 + opr * 8 + 8 + r.payload.length = (encodeRec r).length :=
          (encodeRec_length opr r hr.offs_len).symm
        have hcons : r.tomb :: ((r.offs.map (leEncode 8)).flatten ++
            (leEncode 8 r.payload.length ++ (r.payload ++ encodeRecs rest))) =
            encodeRec r ++ encodeRecs rest := by
          simp [encodeRec, List.append_assoc]
        rw [hreclen, hcons, List.take_left, List.drop_left]
        have hih := ihRs (row0 + 1) (processed ++ encodeRec r) hrest hsort
          (fun i hi => by
            rcases List.mem_cons.mp hi with rfl | hi'
            · have := hge i (List.mem_cons_self i ids')
              omega
            · have h1 := hge id (List.mem_cons_self id ids')
              have h2 := (List.sorted_cons.mp hsort).1 i hi'
              omega)
          (fun i hi => by
            have := hlt i hi
            simp only [List.length_cons] at this
            omega)
        rw [hih, List.append_assoc]
        congr 2
        rw [stampRecsAux, if_neg (by
          intro hc
          rcases List.mem_cons.mp hc with rfl | hc'
          · exact heq rfl
          · have h1 := hge id (List.mem_cons_self id ids')
            have h2 := (List.sorted_cons.mp hsort).1 row0 hc'
            omega)]
        rw [encodeRecs_cons]

theorem diskDeleteRows_fileOf (opr : Nat) (hopr : opr < 2 ^ 64) (rs : List DiskRec)
    (hwf : ∀ r ∈ rs, DiskRecWF opr r) (ids : List Nat)
    (hin : ∀ i ∈ ids, i < rs.length) :
    diskDeleteRows (diskFileOf opr rs) ids = some (diskFileOf opr (stampRecs ids rs)) := by
  rw [show diskFileOf opr rs =
    0x52 :: 0x44 :: 0x42 :: 0x49 :: (leEncode 8 opr ++ encodeRecs rs) from by
      simp [diskFileOf, HEADER_MAGIC]]
  rw [diskDeleteRows]
  rw [if_pos (show ([82, 68, 66, 73] : List Nat) = HEADER_MAGIC from rfl),
    if_pos (by simp [leEncode_length])]
  rw [List.take_left' (leEncode_length 8 opr), List.drop_left' (leEncode_length 8 opr),
    leDecode_leEncode, show (2 : Nat) ^ (8 * 8) = 2 ^ 64 from by norm_num,
    Nat.mod_eq_of_lt hopr]
  rw [diskDeleteAux_encodeRecs opr _ rs 0 _ hwf (List.sorted_insertionSort _ ids)
    (fun i _ => Nat.zero_le i) (fun i hi => by
      have := hin i ((List.perm_insertionSort _ ids).subset hi)
      omega)]
  have hcongr : stampRecsAux (List.insertionSort (· ≤ ·) ids) 0 rs =
      stampRecsAux ids 0 rs :=
    stampRecsAux_congr _ _ 0 rs
      (fun j _ => (List.perm_insertionSort (· ≤ ·) ids).mem_iff)
  rw [hcongr, stampRecs, diskFileOf]
  simp [HEADER_MAGIC, List.append_assoc]

/-- C3 counterexample: a disk table with one stored record; the
out-of-range id 2 makes `delete_rows` run past end-of-file while
skipping records and panic (modelled `none`), instead of returning
normally with no effect. -/
theorem disk_delete_out_of_range_panics :
    diskDeleteRows (diskStore (diskNew ⟨[⟨"id", DataType.U32⟩]⟩)
      [⟨[7, 0, 0, 0], [0, 4]⟩] [0]) [2] = none := by
  have hfile : diskStore (diskNew ⟨[⟨"id", DataType.U32⟩]⟩)
      [⟨[7, 0, 0, 0], [0, 4]⟩] [0] =
      [82, 68, 66, 73, 2, 0, 0, 0, 0, 0, 0, 0,
        0,
        0, 0, 0, 0, 0, 0, 0, 0,
        4, 0, 0, 0, 0, 0, 0, 0,
        4, 0, 0, 0, 0, 0, 0, 0,
        7, 0, 0, 0] := rfl
  rw [hfile]
  simp [diskDeleteRows, diskDeleteAux, listSlice, leDecode, HEADER_MAGIC,
    List.insertionSort, List.orderedInsert]

/-- C3 (amended): both backends accept arbitrarily ordered ids.  The
in-memory backend tolerates out-of-range ids: the result equals
deleting only the in-range ids, and any permutation of the id list
produces the same state.  The disk backend returns normally when every
id is in range of the stored records, stamping exactly the named
ordinals; an out-of-range id makes it panic (see the
counterexample). -/
theorem delete_rows_arbitrary_order_semantics :
    (∀ (s : InMemoryStorage) (ids : List Nat),
      s.delete_rows ids =
        s.delete_rows (ids.filter (fun i => decide (i < s.row_data_starts.length)))) ∧
    (∀ (s : InMemoryStorage) (ids ids' : List Nat), ids.Perm ids' →
      s.delete_rows ids = s.delete_rows ids') ∧
    (∀ (opr : Nat), opr < 2 ^ 64 → ∀ (rs : List DiskRec),
      (∀ r ∈ rs, DiskRecWF opr r) → ∀ (ids : List Nat), (∀ i ∈ ids, i < rs.length) →
      diskDeleteRows (diskFileOf opr rs) ids =
        some (diskFileOf opr (stampRecs ids rs))) :=
  ⟨delete_rows_filter_in_range, delete_rows_perm_invariant,
    fun opr hopr rs hwf ids hin => diskDeleteRows_fileOf opr hopr rs hwf ids hin⟩

/-- C3 amended witness: the disk clause applied to a one-record file
and id 0, and the in-memory clause applied to an empty storage. -/
theorem delete_rows_arbitrary_order_semantics_witness :
    diskDeleteRows (diskFileOf 2 [⟨0, [0, 1], [7]⟩]) [0] =
      some (diskFileOf 2 (stampRecs [0] [⟨0, [0, 1], [7]⟩])) :=
  delete_rows_arbitrary_order_semantics.2.2 2 (by norm_num) _
    (by
      intro r hr
      rcases List.mem_cons.mp hr with rfl | hr2
      · exact ⟨by norm_num, rfl, by decide, by norm_num⟩
      · simp at hr2)
    [0] (by decide)

/-! ## Backend equivalence (claim C2) -/

theorem liveRows_append (a b : List DiskRec) :
    liveRows (a ++ b) = liveRows a ++ liveRows b := by
  induction a with
  | nil => rfl
  | cons r rest ih =>
    rw [List.cons_append, liveRows, liveRows]
    by_cases ht : r.tomb ≠ 0
    · rw [if_pos ht, if_pos ht, ih]
    · rw [if_neg ht, if_neg ht, ih]
      rfl

theorem liveRows_map_diskRecOf (mapping : List Nat) (rows : List Row)
    (hwf : ∀ row ∈ rows, RowWF row)
    (hmap : ∀ row ∈ rows, ∀ i ∈ mapping, i + 1 < row.offsets.length) :
    liveRows (rows.map (diskRecOf mapping)) = rows.map (mrowOf mapping) := by
  induction rows with
  | nil => rfl
  | cons row rest ih =>
    rw [List.map_cons, List.map_cons, liveRows, if_neg (by simp [diskRecOf])]
    rw [ih (fun x hx => hwf x (List.mem_cons_of_mem row hx))
      (fun x hx => hmap x (List.mem_cons_of_mem row hx))]
    congr 1
    have h := recToMRow_diskRecOf mapping row (hwf row (List.mem_cons_self row rest))
      (hmap row (List.mem_cons_self row rest))
    rw [recToMRow] at h
    exact h

theorem scanExpected_map_fst (rs : List DiskRec) (row0 : Nat) :
    (scanExpected rs row0).map Prod.fst = liveOrdinalsAux row0 rs := by
  induction rs generalizing row0 with
  | nil => rfl
  | cons r rest ih =>
    rw [scanExpected, liveOrdinalsAux]
    by_cases ht : r.tomb ≠ 0
    · rw [if_pos ht, if_pos ht, ih]
    · rw [if_neg ht, if_neg ht, List.map_cons, ih]

theorem scanExpected_map_snd (rs : List DiskRec) (row0 : Nat) :
    (scanExpected rs row0).map Prod.snd =
      (liveRows rs).map
        (fun m => ({ data := m.payload, offsets := m.offs } : RowContent)) := by
  induction rs generalizing row0 with
  | nil => rfl
  | cons r rest ih =>
    rw [scanExpected, liveRows]
    by_cases ht : r.tomb ≠ 0
    · rw [if_pos ht, if_pos ht, ih]
    · rw [if_neg ht, if_neg ht, List.map_cons, List.map_cons, ih]

theorem scanExpected_length (rs : List DiskRec) (row0 : Nat) :
    (scanExpected rs row0).length = (liveRows rs).length := by
  have h1 := congrArg List.length (scanExpected_map_snd rs row0)
  simpa using h1

theorem liveOrdinalsAux_length (base : Nat) (rs : List DiskRec) :
    (liveOrdinalsAux base rs).length = (liveRows rs).length := by
  induction rs generalizing base with
  | nil => rfl
  | cons r rest ih =>
    rw [liveOrdinalsAux, liveRows]
    by_cases ht : r.tomb ≠ 0
    · rw [if_pos ht, if_pos ht, ih]
    · rw [if_neg ht, if_neg ht, List.length_cons, List.length_cons, ih]

theorem liveOrdinalsAux_lt (base : Nat) (rs : List DiskRec) :
    ∀ o ∈ liveOrdinalsAux base rs, o < base + rs.length := by
  induction rs generalizing base with
  | nil => simp [liveOrdinalsAux]
  | cons r rest ih =>
    intro o ho
    rw [liveOrdinalsAux] at ho
    by_cases ht : r.tomb ≠ 0
    · rw [if_pos ht] at ho
      have := ih (base + 1) o ho
      simp only [List.length_cons]
      omega
    · rw [if_neg ht] at ho
      rcases List.mem_cons.mp ho with rfl | ho'
      · simp only [List.length_cons]
        omega
      · have := ih (base + 1) o ho'
        simp only [List.length_cons]
        omega

theorem ordsOfPositionsAux_ge (ps : List Nat) (b c : Nat) (rs : List DiskRec) :
    ∀ o ∈ ordsOfPositionsAux ps b c rs, b ≤ o := by
  induction rs generalizing b c with
  | nil => simp [ordsOfPositionsAux]
  | cons r rest ih =>
    intro o ho
    rw [ordsOfPositionsAux] at ho
    by_cases ht : r.tomb ≠ 0
    · rw [if_pos ht] at ho
      have := ih (b + 1) c o ho
      omega
    · rw [if_neg ht] at ho
      rcases List.mem_append.mp ho with h1 | h1
      · by_cases hc : c ∈ ps
        · rw [if_pos hc] at h1
          simp only [List.mem_singleton] at h1
          omega
        · rw [if_neg hc] at h1
          simp at h1
      · have := ih (b + 1) (c + 1) o h1
        omega

theorem liveRows_stamp_ords (ps : List Nat) (rs : List DiskRec) :
    ∀ (b c : Nat),
      liveRows (stampRecsAux (ordsOfPositionsAux ps b c rs) b rs) =
        keepNotIdxAux ps c (liveRows rs) := by
  induction rs with
  | nil => intro b c; rfl
  | cons r rest ih =>
    intro b c
    rw [ordsOfPositionsAux, stampRecsAux]
    by_cases ht : r.tomb ≠ 0
    · rw [if_pos ht]
      rw [if_neg (fun hc => by
        have := ordsOfPositionsAux_ge ps (b + 1) c rest b hc
        omega)]
      rw [liveRows, if_pos ht, liveRows, if_pos ht]
      exact ih (b + 1) c
    · rw [if_neg ht]
      by_cases hc : c ∈ ps
      · rw [if_pos hc, List.singleton_append]
        rw [if_pos (List.mem_cons_self b _)]
        rw [stampRecsAux_small b _ (b + 1) rest (by omega)]
        rw [liveRows, if_pos (by norm_num)]
        rw [liveRows, if_neg ht, keepNotIdxAux, if_pos hc]
        exact ih (b + 1) (c + 1)
      · rw [if_neg hc, List.nil_append]
        rw [if_neg (fun hmem => by
          have := ordsOfPositionsAux_ge ps (b + 1) (c + 1) rest b hmem
          omega)]
        rw [liveRows, if_neg ht, liveRows, if_neg ht, keepNotIdxAux, if_neg hc]
        rw [ih (b + 1) (c + 1)]

theorem mem_ordsOfPositionsAux (ps : List Nat) (rs : List DiskRec) :
    ∀ (b c o : Nat),
      o ∈ ordsOfPositionsAux ps b c rs ↔
        ∃ j, j < (liveRows rs).length ∧ (c + j) ∈ ps ∧
          (liveOrdinalsAux b rs).getD j 0 = o := by
  induction rs with
  | nil =>
    intro b c o
    simp [ordsOfPositionsAux, liveRows]
  | cons r rest ih =>
    intro b c o
    rw [ordsOfPositionsAux, liveRows, liveOrdinalsAux]
    by_cases ht : r.tomb ≠ 0
    · rw [if_pos ht, if_pos ht, if_pos ht]
      exact ih (b + 1) c o
    · rw [if_neg ht, if_neg ht, if_neg ht]
      constructor
      · intro ho
        rcases List.mem_append.mp ho with h1 | h1
        · by_cases hc : c ∈ ps
          · rw [if_pos hc] at h1
            simp only [List.mem_singleton] at h1
            subst h1
            exact ⟨0, by simp, by simpa using hc, rfl⟩
          · rw [if_neg hc] at h1
            simp at h1
        · obtain ⟨j, hj, hcj, hgd⟩ := (ih (b + 1) (c + 1) o).mp h1
          refine ⟨j + 1, by simpa using Nat.succ_lt_succ hj, ?_, by simpa using hgd⟩
          have harith : c + (j + 1) = c + 1 + j := by omega
          rw [harith]
          exact hcj
      · rintro ⟨j, hj, hcj, hgd⟩
        cases j with
        | zero =>
          apply List.mem_append.mpr
          left
          rw [if_pos (by simpa using hcj)]
          simp only [List.getD_cons_zero] at hgd
          subst hgd
          exact List.mem_singleton.mpr rfl
        | succ j' =>
          have hj' : j' < (liveRows rest).length := by
            simp only [List.length_cons] at hj
            omega
          apply List.mem_append.mpr
          right
          refine (ih (b + 1) (c + 1) o).mpr ⟨j', hj', ?_, by simpa using hgd⟩
          have harith : c + 1 + j' = c + (j' + 1) := by omega
          rw [harith]
          exact hcj

theorem getD_fst_of_map_fst {α β : Type} (l : List (α × β)) (p : α × β) (n : Nat) :
    (l.getD n p).fst = (l.map Prod.fst).getD n p.fst := by
  by_cases h : n < l.length
  · rw [List.getD_eq_getElem l p h, List.getD_eq_getElem _ _ (by simpa using h),
      List.getElem_map]
  · have h' : l.length ≤ n := Nat.le_of_not_lt h
    rw [List.getD_eq_default _ _ h', List.getD_eq_default _ _ (by simpa using h')]

theorem keepNotIdxAux_subset (ids : List Nat) (rows : List MRow) :
    ∀ base, ∀ x ∈ keepNotIdxAux ids base rows, x ∈ rows := by
  induction rows with
  | nil =>
    intro base x hx
    simp [keepNotIdxAux] at hx
  | cons r rs ih =>
    intro base x hx
    rw [keepNotIdxAux] at hx
    by_cases hb : base ∈ ids
    · rw [if_pos hb] at hx
      exact List.mem_cons_of_mem r (ih (base + 1) x hx)
    · rw [if_neg hb] at hx
      rcases List.mem_cons.mp hx with rfl | hx'
      · exact List.mem_cons_self _ _
      · exact List.mem_cons_of_mem r (ih (base + 1) x hx')

theorem stampRecsAux_wf (opr : Nat) (ids : List Nat) (rs : List DiskRec)
    (hwf : ∀ r ∈ rs, DiskRecWF opr r) :
    ∀ base, ∀ r ∈ stampRecsAux ids base rs, DiskRecWF opr r := by
  induction rs with
  | nil =>
    intro base r hr
    simp [stampRecsAux] at hr
  | cons x rest ih =>
    intro base r hr
    rw [stampRecsAux] at hr
    rcases List.mem_cons.mp hr with rfl | hr'
    · have hx := hwf x (List.mem_cons_self x rest)
      split_ifs with hb
      · exact ⟨by norm_num, hx.offs_len, hx.offs_bound, hx.payload_bound⟩
      · exact hx
    · exact ih (fun y hy => hwf y (List.mem_cons_of_mem x hy)) (base + 1) r hr'

theorem map_getD_range {α : Type} [Inhabited α] (l : List α) :
    (List.range l.length).map (fun i => l.getD i default) = l := by
  apply List.ext_getElem
  · simp
  · intro n h1 h2
    simp only [List.getElem_map, List.getElem_range]
    rw [List.getD_eq_getElem]

theorem delete_rows_keepNotIdx (opr : Nat) (rows : List MRow)
    (hoffs : ∀ r ∈ rows, r.offs.length = opr) (ps : List Nat) (hnd : ps.Nodup)
    (hin : ∀ p ∈ ps, p < rows.length) :
    (memOfRows opr rows).delete_rows ps = memOfRows opr (keepNotIdx ps rows) := by
  rw [delete_rows_memOfRows opr rows hoffs]
  congr 1
  rw [foldl_eraseIdx_desc _ rows (insertionSortDesc_sorted_gt ps hnd)
    (fun i hi => hin i ((List.perm_insertionSort _ ps).mem_iff.mp hi))]
  exact keepNotIdxAux_congr _ _ (fun i => (List.perm_insertionSort _ ps).mem_iff) 0 rows

/-- The joint states reachable by applying the same logical operations
to both backends.  A `store` passes well-formed rows whose mapping
fits the schema's arity and covers each row's bytes exactly (the
engine's validation guarantees all of this before it calls the
storage layer).  A `delete` names a duplicate-free set `ps` of scan
positions, handing the in-memory backend `ps` itself (its scan ids
are positions) and the disk backend the row ids its own scan reported
at those positions. -/
inductive BackendSync (schema : TableSchema) :
    InMemoryStorage → List Nat → Prop where
  | init : BackendSync schema (InMemoryStorage.new schema) (diskNew schema)
  | store (m : InMemoryStorage) (f : List Nat) (rows : List Row) (mapping : List Nat) :
      BackendSync schema m f →
      (∀ row ∈ rows, RowWF row) →
      (∀ row ∈ rows, ∀ i ∈ mapping, i + 1 < row.offsets.length) →
      mapping.length = schema.columns.length →
      (∀ row ∈ rows,
        ((mapping.map (fun i => row.get_column i)).flatten).length = row.data.length) →
      (∀ row ∈ rows, row.data.length < 2 ^ 64) →
      BackendSync schema (m.store rows mapping) (diskStore f rows mapping)
  | delete (m : InMemoryStorage) (f : List Nat) (ps : List Nat)
      (items : List (Nat × RowContent)) (ids : List Nat) (f' : List Nat) :
      BackendSync schema m f →
      ps.Nodup →
      diskScan f = some items →
      (∀ p ∈ ps, p < items.length) →
      ids = ps.map (fun p => (items.getD p (0, { data := [], offsets := [] })).fst) →
      diskDeleteRows f ids = some f' →
      BackendSync schema (m.delete_rows ps) f'

theorem backendSync_rep (schema : TableSchema)
    (hopr : schema.columns.length + 1 < 2 ^ 64) (m : InMemoryStorage) (f : List Nat)
    (h : BackendSync schema m f) :
    ∃ recs : List DiskRec,
      f = diskFileOf (schema.columns.length + 1) recs ∧
      (∀ r ∈ recs, DiskRecWF (schema.columns.length + 1) r) ∧
      m = memOfRows (schema.columns.length + 1) (liveRows recs) ∧
      (∀ r ∈ liveRows recs, MRowWF (schema.columns.length + 1) r) := by
  induction h with
  | init =>
    refine ⟨[], by simp [diskNew, diskFileOf, encodeRecs], by simp, rfl, by simp [liveRows]⟩
  | store m f rows mapping hsync hrwf hmapok harity hcover hsize ih =>
    obtain ⟨recs, rfl, hrecwf, rfl, hlivewf⟩ := ih
    refine ⟨recs ++ rows.map (diskRecOf mapping), ?_, ?_, ?_, ?_⟩
    · exact diskStore_fileOf _ recs rows mapping hcover
    · intro r hr
      rcases List.mem_append.mp hr with h1 | h1
      · exact hrecwf r h1
      · obtain ⟨row, hrow, rfl⟩ := List.mem_map.mp h1
        exact diskRecOf_wf _ mapping row (hrwf row hrow) (hmapok row hrow)
          (by omega) (hsize row hrow) (hcover row hrow)
    · rw [store_memOfRows, liveRows_append, liveRows_map_diskRecOf mapping rows hrwf hmapok]
    · intro r hr
      rw [liveRows_append, liveRows_map_diskRecOf mapping rows hrwf hmapok] at hr
      rcases List.mem_append.mp hr with h1 | h1
      · exact hlivewf r h1
      · obtain ⟨row, hrow, rfl⟩ := List.mem_map.mp h1
        exact mrowOf_wf _ mapping row (by omega)
  | delete m f ps items ids f' hsync hnd hscan hlt hidsdef hdel ih =>
    obtain ⟨recs, rfl, hrecwf, rfl, hlivewf⟩ := ih
    have hitems : items = scanExpected recs 0 := by
      rw [disk_scan_wellformed _ hopr recs hrecwf] at hscan
      exact (Option.some.inj hscan).symm
    have hlenitems : items.length = (liveRows recs).length := by
      rw [hitems]
      exact scanExpected_length recs 0
    have hfst : ∀ p, p < items.length →
        (items.getD p (0, { data := [], offsets := [] })).fst =
          (liveOrdinalsAux 0 recs).getD p 0 := by
      intro p hp
      rw [getD_fst_of_map_fst, hitems, scanExpected_map_fst]
    have hids : ids = ps.map (fun p => (liveOrdinalsAux 0 recs).getD p 0) := by
      rw [hidsdef]
      exact List.map_congr_left (fun p hp => hfst p (hlt p hp))
    have hmemiff : ∀ o, o ∈ ids ↔ o ∈ ordsOfPositionsAux ps 0 0 recs := by
      intro o
      rw [hids, mem_ordsOfPositionsAux ps recs 0 0 o]
      constructor
      · intro ho
        obtain ⟨p, hp, rfl⟩ := List.mem_map.mp ho
        exact ⟨p, by rw [← hlenitems]; exact hlt p hp, by simpa using hp, rfl⟩
      · rintro ⟨j, hj, hjps, rfl⟩
        exact List.mem_map.mpr ⟨j, by simpa using hjps, rfl⟩
    have hinrange : ∀ i ∈ ids, i < recs.length := by
      intro i hi
      rw [hids] at hi
      obtain ⟨p, hp, rfl⟩ := List.mem_map.mp hi
      have hp' : p < (liveOrdinalsAux 0 recs).length := by
        rw [liveOrdinalsAux_length, ← hlenitems]
        exact hlt p hp
      rw [List.getD_eq_getElem _ _ hp']
      have hmem := List.getElem_mem hp'
      have := liveOrdinalsAux_lt 0 recs _ hmem
      omega
    have hdisk := diskDeleteRows_fileOf _ hopr recs hrecwf ids hinrange
    rw [hdisk] at hdel
    have hf' : f' = diskFileOf (schema.columns.length + 1) (stampRecs ids recs) :=
      (Option.some.inj hdel).symm
    have hstamp : stampRecs ids recs =
        stampRecsAux (ordsOfPositionsAux ps 0 0 recs) 0 recs :=
      stampRecsAux_congr ids _ 0 recs (fun j _ => hmemiff j)
    have hlive : liveRows (stampRecs ids recs) = keepNotIdx ps (liveRows recs) := by
      rw [hstamp, keepNotIdx]
      exact liveRows_stamp_ords ps recs 0 0
    refine ⟨stampRecs ids recs, hf', ?_, ?_, ?_⟩
    · exact stampRecsAux_wf _ ids recs hrecwf 0
    · rw [hlive]
      exact delete_rows_keepNotIdx _ (liveRows recs) (fun r hr => (hlivewf r hr).len)
        ps hnd (fun p hp => by rw [← hlenitems]; exact hlt p hp)
    · intro r hr
      rw [hlive, keepNotIdx] at hr
      exact hlivewf r (keepNotIdxAux_subset ps (liveRows recs) 0 r hr)

def cSchema : TableSchema := ⟨[⟨"id", DataType.U32⟩]⟩

def cRow0 : Row := ⟨[1, 0, 0, 0], [0, 4]⟩

def cRow1 : Row := ⟨[2, 0, 0, 0], [0, 4]⟩

/-- C2 counterexample: the literally identical operation sequence
(store two rows, `delete_rows [0]`, `delete_rows [0]` again) leaves
the in-memory backend with zero rows but the disk backend with one
live row.  The in-memory backend re-indexes the surviving rows, so the
second id 0 names the second stored row; the disk backend keeps stable
record ordinals, so the second id 0 re-stamps the already-dead first
record. -/
theorem backend_divergence_counterexample :
    (∃ mItems,
      ((((InMemoryStorage.new cSchema).store [cRow0, cRow1] [0]).delete_rows
          [0]).delete_rows [0]).scan = some mItems ∧ mItems.length = 0) ∧
    (∃ f1 f2 dItems,
      diskDeleteRows (diskStore (diskNew cSchema) [cRow0, cRow1] [0]) [0] = some f1 ∧
      diskDeleteRows f1 [0] = some f2 ∧
      diskScan f2 = some dItems ∧ dItems.length = 1) := by
  constructor
  · exact ⟨[], by decide, rfl⟩
  · have hnew : diskNew cSchema = diskFileOf 2 [] := by
      simp [diskNew, diskFileOf, encodeRecs, cSchema]
    have hcover : ∀ row ∈ [cRow0, cRow1],
        (([0].map (fun i => row.get_column i)).flatten).length = row.data.length := by
      decide
    have hstore : diskStore (diskNew cSchema) [cRow0, cRow1] [0] =
        diskFileOf 2 [⟨0, [0, 4], [1, 0, 0, 0]⟩, ⟨0, [0, 4], [2, 0, 0, 0]⟩] := by
      rw [hnew, diskStore_fileOf 2 [] [cRow0, cRow1] [0] hcover]
      rw [show ([] : List DiskRec) ++ [cRow0, cRow1].map (diskRecOf [0]) =
        [⟨0, [0, 4], [1, 0, 0, 0]⟩, ⟨0, [0, 4], [2, 0, 0, 0]⟩] from by decide]
    have hwf1 : ∀ r ∈ ([⟨0, [0, 4], [1, 0, 0, 0]⟩, ⟨0, [0, 4], [2, 0, 0, 0]⟩] :
        List DiskRec), DiskRecWF 2 r := by
      intro r hr
      rcases List.mem_cons.mp hr with rfl | hr'
      · exact ⟨by norm_num, rfl, by decide, by norm_num⟩
      rcases List.mem_cons.mp hr' with rfl | hr''
      · exact ⟨by norm_num, rfl, by decide, by norm_num⟩
      · simp at hr''
    have hdel1 := diskDeleteRows_fileOf 2 (by norm_num)
      [⟨0, [0, 4], [1, 0, 0, 0]⟩, ⟨0, [0, 4], [2, 0, 0, 0]⟩] hwf1 [0]
      (by intro i hi; simp only [List.mem_singleton] at hi; subst hi; decide)
    rw [show stampRecs [0] [⟨0, [0, 4], [1, 0, 0, 0]⟩, ⟨0, [0, 4], [2, 0, 0, 0]⟩] =
      [⟨1, [0, 4], [1, 0, 0, 0]⟩, ⟨0, [0, 4], [2, 0, 0, 0]⟩] from by decide] at hdel1
    have hwf2 : ∀ r ∈ ([⟨1, [0, 4], [1, 0, 0, 0]⟩, ⟨0, [0, 4], [2, 0, 0, 0]⟩] :
        List DiskRec), DiskRecWF 2 r := by
      intro r hr
      rcases List.mem_cons.mp hr with rfl | hr'
      · exact ⟨by norm_num, rfl, by decide, by norm_num⟩
      rcases List.mem_cons.mp hr' with rfl | hr''
      · exact ⟨by norm_num, rfl, by decide, by norm_num⟩
      · simp at hr''
    have hdel2 := diskDeleteRows_fileOf 2 (by norm_num)
      [⟨1, [0, 4], [1, 0, 0, 0]⟩, ⟨0, [0, 4], [2, 0, 0, 0]⟩] hwf2 [0]
      (by intro i hi; simp only [List.mem_singleton] at hi; subst hi; decide)
    rw [show stampRecs [0] [⟨1, [0, 4], [1, 0, 0, 0]⟩, ⟨0, [0, 4], [2, 0, 0, 0]⟩] =
      [⟨1, [0, 4], [1, 0, 0, 0]⟩, ⟨0, [0, 4], [2, 0, 0, 0]⟩] from by decide] at hdel2
    have hscan := disk_scan_wellformed 2 (by norm_num)
      [⟨1, [0, 4], [1, 0, 0, 0]⟩, ⟨0, [0, 4], [2, 0, 0, 0]⟩] hwf2
    refine ⟨diskFileOf 2 [⟨1, [0, 4], [1, 0, 0, 0]⟩, ⟨0, [0, 4], [2, 0, 0, 0]⟩],
      diskFileOf 2 [⟨1, [0, 4], [1, 0, 0, 0]⟩, ⟨0, [0, 4], [2, 0, 0, 0]⟩],
      scanExpected [⟨1, [0, 4], [1, 0, 0, 0]⟩, ⟨0, [0, 4], [2, 0, 0, 0]⟩] 0,
      ?_, hdel2, hscan, by decide⟩
    rw [hstore]
    exact hdel1

/-- C2: backend equivalence, as amended.  The raw claim — the literally
identical call sequence yields identical scans — is false, because the
backends interpret `delete_rows` ids differently (the in-memory backend
re-indexes live rows after each removal while the disk backend keeps
stable record ordinals); see `backend_divergence_counterexample`.  The
amended property: along every trace in which each delete names one
duplicate-free set of scan positions and each backend is addressed with
the row ids its own scan reports for those positions (`BackendSync`),
corresponding scans agree in row count, in order, and byte-for-byte
on column payloads and offsets. -/
theorem backend_equivalence (schema : TableSchema)
    (hopr : schema.columns.length + 1 < 2 ^ 64) (m : InMemoryStorage) (f : List Nat)
    (h : BackendSync schema m f) :
    ∃ mItems dItems, m.scan = some mItems ∧ diskScan f = some dItems ∧
      mItems.length = dItems.length ∧
      mItems.map Prod.snd = dItems.map Prod.snd := by
  obtain ⟨recs, rfl, hrecwf, rfl, hlivewf⟩ := backendSync_rep schema hopr m f h
  refine ⟨_, _,
    scan_memOfRows (schema.columns.length + 1) (liveRows recs)
      (fun r hr => (hlivewf r hr).len),
    disk_scan_wellformed _ hopr recs hrecwf, ?_, ?_⟩
  · simp [scanExpected_length]
  · rw [scanExpected_map_snd, List.map_map]
    conv_rhs => rw [← map_getD_range (liveRows recs), List.map_map]
    rfl

theorem backend_equivalence_witness :
    ∃ mItems dItems,
      ((InMemoryStorage.new cSchema).store [cRow0] [0]).scan = some mItems ∧
      diskScan (diskStore (diskNew cSchema) [cRow0] [0]) = some dItems ∧
      mItems.length = dItems.length ∧
      mItems.map Prod.snd = dItems.map Prod.snd := by
  have hrwf : ∀ row ∈ [cRow0], RowWF row := by
    intro row hrow
    rcases List.mem_cons.mp hrow with rfl | h
    · exact ⟨rfl, by decide, by decide⟩
    · simp at h
  exact backend_equivalence cSchema (by decide) _ _
    (BackendSync.store _ _ [cRow0] [0] BackendSync.init hrwf (by decide) (by decide)
      (by decide) (by decide))

end Rudibi
